import Mathlib

/-!
Verification of the nucleon simulation (src/nucleon_simulation.py).

Shallow embedding conventions:

* Python floats are idealized as elements of a linear ordered field:
  `ℚ` where the source only adds, multiplies, divides and compares (so
  that witnesses can be checked by `decide`), and `ℝ` where the source
  uses `math.exp` / `np.linalg.norm`.  Decimal literals of the source
  (`0.1`, `0.3`, `0.7`, `0.002`, ...) are written as exact fractions.
* In-place attribute mutation is modelled by returning updated copies /
  updated lists; the identity test `other is not self` of the
  per-particle loops is modelled by iterating over indices and skipping
  the particle's own index.
* A Python runtime fault (`ZeroDivisionError`) is modelled by `Option`:
  `none` is a fault.  Short-circuit boolean evaluation over possibly
  faulting operands is modelled by `scAnd` / `scOr` on `Option Bool`.
* The display colour of a nucleon (kept in lock step with `is_proton`:
  `RED` for protons, `BLUE` for neutrons) is presentation data and is
  not part of the modelled state.
-/

namespace NucleonSim

/-- Screen/domain width (`WIDTH = 200`). -/
def WIDTH {α : Type} [LinearOrderedField α] : α := 200

/-- Screen/domain height (`HEIGHT = 200`). -/
def HEIGHT {α : Type} [LinearOrderedField α] : α := 200

/-- `STRONG_FORCE_RADIUS = 30`. -/
def STRONG_FORCE_RADIUS {α : Type} [LinearOrderedField α] : α := 30

/-- `ELECTROSTATIC_CONSTANT = 40`. -/
def ELECTROSTATIC_CONSTANT {α : Type} [LinearOrderedField α] : α := 40

/-- `STRONG_FORCE_CONSTANT = 10`. -/
def STRONG_FORCE_CONSTANT {α : Type} [LinearOrderedField α] : α := 10

/-- `SPRING_DAMPENING = 0.3` (written as the exact fraction `3/10`). -/
def SPRING_DAMPENING {α : Type} [LinearOrderedField α] : α := 3 / 10

/-- `BETA_DECAY_PROBABILITY = 0.002` (the exact fraction `2/1000`). -/
def BETA_DECAY_PROBABILITY {α : Type} [LinearOrderedField α] : α := 2 / 1000

/-- `NEUTRON_RICH_THRESHOLD = 1.5` (the exact fraction `3/2`). -/
def NEUTRON_RICH_THRESHOLD {α : Type} [LinearOrderedField α] : α := 3 / 2

/-- `PROTON_RICH_THRESHOLD = 1.2` (the exact fraction `6/5`). -/
def PROTON_RICH_THRESHOLD {α : Type} [LinearOrderedField α] : α := 6 / 5

/-- State of one particle (class `Nucleon`): charge type, 2D position,
2D velocity, current fragment label, and the bond strength and neighbour
count maintained by `calculate_neighbors`.  The derived `color`
attribute is omitted (pure presentation, kept in lock step with
`is_proton`). -/
structure Nucleon (α : Type) where
  is_proton : Bool
  pos : α × α
  vel : α × α
  fragment_id : ℕ
  bond_strength : α
  neighbors : ℕ
deriving DecidableEq

/-- Kind of the secondary particle recorded in a decay result dict
(`"type"` field: `"electron"` for beta-minus, `"positron"` for
beta-plus). -/
inductive DecayKind : Type where
  | electron : DecayKind
  | positron : DecayKind
deriving DecidableEq

/-- A decay result dict `{"pos": ..., "type": ...}` as returned by
`Nucleon.check_decay`. -/
structure DecayEvent (α : Type) where
  pos : α × α
  kind : DecayKind
deriving DecidableEq

variable {α : Type} [LinearOrderedField α]

/-- Python division on floats-idealized-as-field-elements; a zero
divisor raises `ZeroDivisionError`, modelled by `none`. -/
def pdiv (a b : α) : Option α := if b = 0 then none else some (a / b)

/-- Short-circuit `and` over possibly faulting Boolean operands: when
the first operand is `False`, Python does not evaluate the second, so a
fault in the second operand is masked. -/
def scAnd (a b : Option Bool) : Option Bool :=
  a.bind (fun x => if x then b else some false)

/-- Short-circuit `or` over possibly faulting Boolean operands: when the
first operand is `True`, Python does not evaluate the second. -/
def scOr (a b : Option Bool) : Option Bool :=
  a.bind (fun x => if x then some true else b)

/-- The list comprehension in `Nucleon.check_decay`:
`[n for n in nucleons if n.fragment_id == self.fragment_id]`. -/
def fragment_nucleons (self : Nucleon α) (ns : List (Nucleon α)) : List (Nucleon α) :=
  ns.filter (fun n => n.fragment_id == self.fragment_id)

/-- `protons = sum(1 for n in fragment_nucleons if n.is_proton)`. -/
def fragProtons (self : Nucleon α) (ns : List (Nucleon α)) : ℕ :=
  ((fragment_nucleons self ns).filter (fun n => n.is_proton)).length

/-- `neutrons = len(fragment_nucleons) - protons`. -/
def fragNeutrons (self : Nucleon α) (ns : List (Nucleon α)) : ℕ :=
  (fragment_nucleons self ns).length - fragProtons self ns

/-- The beta-minus condition of `Nucleon.check_decay`, with Python's
left-to-right short-circuit evaluation made explicit:
`not self.is_proton and neutrons > 0 and
 (protons == 0 or neutrons/protons > NEUTRON_RICH_THRESHOLD) and
 self.bond_strength < 20`. -/
def betaMinusCond (self : Nucleon α) (ns : List (Nucleon α)) : Option Bool :=
  scAnd (some (!self.is_proton))
    (scAnd (some (decide (0 < fragNeutrons self ns)))
      (scAnd
        (scOr (some (decide (fragProtons self ns = 0)))
          ((pdiv ((fragNeutrons self ns : α)) ((fragProtons self ns : α))).map
            (fun q => decide (NEUTRON_RICH_THRESHOLD < q))))
        (some (decide (self.bond_strength < 20)))))

/-- The beta-plus condition of `Nucleon.check_decay`:
`self.is_proton and protons > 0 and
 (neutrons == 0 or protons/neutrons > PROTON_RICH_THRESHOLD) and
 self.bond_strength < 15`. -/
def betaPlusCond (self : Nucleon α) (ns : List (Nucleon α)) : Option Bool :=
  scAnd (some self.is_proton)
    (scAnd (some (decide (0 < fragProtons self ns)))
      (scAnd
        (scOr (some (decide (fragNeutrons self ns = 0)))
          ((pdiv ((fragProtons self ns : α)) ((fragNeutrons self ns : α))).map
            (fun q => decide (PROTON_RICH_THRESHOLD < q))))
        (some (decide (self.bond_strength < 15)))))

/-- `Nucleon.check_decay`.  The draw `r` stands for the value of
`random.random()`; the gate `random.random() > BETA_DECAY_PROBABILITY`
returns `None` (no decay attempt).  The result is `none` on a runtime
fault, otherwise `some` of the updated particle together with the
optional decay result dict. -/
def check_decay (r : α) (self : Nucleon α) (ns : List (Nucleon α)) :
    Option (Nucleon α × Option (DecayEvent α)) :=
  if BETA_DECAY_PROBABILITY < r then some (self, none)
  else if fragNeutrons self ns = 0 ∧ fragProtons self ns = 0 then some (self, none)
  else
    match betaMinusCond self ns with
    | none => none
    | some true => some ({ self with is_proton := true }, some ⟨self.pos, DecayKind.electron⟩)
    | some false =>
      match betaPlusCond self ns with
      | none => none
      | some true => some ({ self with is_proton := false }, some ⟨self.pos, DecayKind.positron⟩)
      | some false => some (self, none)

/-- A particle is a member of the fragment list filtered by its own
fragment id. -/
lemma mem_fragment_self (self : Nucleon α) (ns : List (Nucleon α)) (h : self ∈ ns) :
    self ∈ fragment_nucleons self ns := by
  unfold fragment_nucleons
  exact List.mem_filter.mpr ⟨h, by simp⟩

/-- The proton count of a fragment never exceeds the fragment size. -/
lemma fragProtons_le (self : Nucleon α) (ns : List (Nucleon α)) :
    fragProtons self ns ≤ (fragment_nucleons self ns).length := by
  unfold fragProtons
  exact List.length_filter_le _ _

/-- Proton count plus neutron count is the fragment size. -/
lemma fragProtons_add_fragNeutrons (self : Nucleon α) (ns : List (Nucleon α)) :
    fragProtons self ns + fragNeutrons self ns = (fragment_nucleons self ns).length := by
  unfold fragNeutrons
  exact Nat.add_sub_cancel' (fragProtons_le self ns)

/-- The beta-minus condition never faults: the division
`neutrons/protons` is evaluated only under the short-circuit guard
`protons == 0 or ...`, which ensures a nonzero divisor. -/
lemma betaMinusCond_ne_none (self : Nucleon α) (ns : List (Nucleon α)) :
    betaMinusCond self ns ≠ none := by
  unfold betaMinusCond scAnd scOr pdiv
  by_cases hp : fragProtons self ns = 0 <;>
    simp [hp, Option.bind, Nat.cast_eq_zero] <;>
    split <;> (try split) <;> (try split) <;> simp

/-- The beta-plus condition never faults: the division
`protons/neutrons` is evaluated only under the short-circuit guard
`neutrons == 0 or ...`. -/
lemma betaPlusCond_ne_none (self : Nucleon α) (ns : List (Nucleon α)) :
    betaPlusCond self ns ≠ none := by
  unfold betaPlusCond scAnd scOr pdiv
  by_cases hn : fragNeutrons self ns = 0 <;>
    simp [hn, Option.bind, Nat.cast_eq_zero] <;>
    split <;> (try split) <;> (try split) <;> simp

/-- Claim C10: `check_decay` is total and never faults for a particle
that belongs to the simulated list: the particle matches its own
fragment id, so the fragment list is non-empty and the early-return
branch for an empty fragment is unreachable; both ratio divisions are
evaluated only under short-circuit guards ensuring a nonzero divisor,
so neither condition faults and `check_decay` always returns a value. -/
theorem claim_C10 (r : α) (self : Nucleon α) (ns : List (Nucleon α)) (hmem : self ∈ ns) :
    fragment_nucleons self ns ≠ [] ∧
    ¬(fragNeutrons self ns = 0 ∧ fragProtons self ns = 0) ∧
    betaMinusCond self ns ≠ none ∧
    betaPlusCond self ns ≠ none ∧
    (check_decay r self ns).isSome = true := by
  have hne : fragment_nucleons self ns ≠ [] := by
    intro hnil
    have := mem_fragment_self self ns hmem
    simp [hnil] at this
  have hlen : 0 < (fragment_nucleons self ns).length := List.length_pos.mpr hne
  have hcnt : ¬(fragNeutrons self ns = 0 ∧ fragProtons self ns = 0) := by
    rintro ⟨h1, h2⟩
    have := fragProtons_add_fragNeutrons self ns
    rw [h1, h2] at this
    omega
  refine ⟨hne, hcnt, betaMinusCond_ne_none self ns, betaPlusCond_ne_none self ns, ?_⟩
  unfold check_decay
  rcases hm : betaMinusCond self ns with _ | b
  · exact absurd hm (betaMinusCond_ne_none self ns)
  rcases hq : betaPlusCond self ns with _ | c
  · exact absurd hq (betaPlusCond_ne_none self ns)
  cases b <;> cases c <;> split <;> (try split) <;> simp_all

/-- Witness for claim C10 at a concrete input. -/
theorem claim_C10_witness :
    (⟨false, (0, 0), (0, 0), 0, 0, 0⟩ : Nucleon ℚ) ∈
        [(⟨false, (0, 0), (0, 0), 0, 0, 0⟩ : Nucleon ℚ)] ∧
      (check_decay (1 : ℚ) ⟨false, (0, 0), (0, 0), 0, 0, 0⟩
          [⟨false, (0, 0), (0, 0), 0, 0, 0⟩]).isSome = true := by
  refine ⟨by decide, ?_⟩
  exact (claim_C10 (1 : ℚ) ⟨false, (0, 0), (0, 0), 0, 0, 0⟩
    [⟨false, (0, 0), (0, 0), 0, 0, 0⟩] (by decide)).2.2.2.2

/-- Claim C9: with the decay probability gate passing, a neutron whose
fragment contains zero protons and whose bond strength is `0` flips to
a proton, and exactly one electron-kind decay event is emitted at the
particle's position. -/
theorem claim_C9 (r : α) (self : Nucleon α) (ns : List (Nucleon α))
    (hmem : self ∈ ns) (hr : ¬BETA_DECAY_PROBABILITY < r)
    (hneut : self.is_proton = false) (hbond : self.bond_strength = 0)
    (hp : fragProtons self ns = 0) :
    check_decay r self ns =
      some ({ self with is_proton := true }, some ⟨self.pos, DecayKind.electron⟩) := by
  have hne : fragment_nucleons self ns ≠ [] := by
    intro hnil
    have := mem_fragment_self self ns hmem
    simp [hnil] at this
  have hlen : 0 < (fragment_nucleons self ns).length := List.length_pos.mpr hne
  have hn : 0 < fragNeutrons self ns := by
    have := fragProtons_add_fragNeutrons self ns
    omega
  have hcond : betaMinusCond self ns = some true := by
    unfold betaMinusCond scAnd scOr
    simp [hneut, hn, hp, hbond]
  unfold check_decay
  rw [if_neg hr, if_neg (by omega), hcond]

/-- Witness for claim C9 at a concrete input. -/
theorem claim_C9_witness :
    check_decay (1 / 1000 : ℚ) ⟨false, (3, 4), (0, 0), 0, 0, 0⟩
        [⟨false, (3, 4), (0, 0), 0, 0, 0⟩] =
      some (⟨true, (3, 4), (0, 0), 0, 0, 0⟩, some ⟨(3, 4), DecayKind.electron⟩) := by
  exact claim_C9 (1 / 1000 : ℚ) ⟨false, (3, 4), (0, 0), 0, 0, 0⟩
    [⟨false, (3, 4), (0, 0), 0, 0, 0⟩] (by decide)
    (by norm_num [BETA_DECAY_PROBABILITY]) (by decide) (by decide) (by decide)

noncomputable section

/-- Euclidean norm of a 2D vector (`np.linalg.norm`). -/
def norm2 (v : ℝ × ℝ) : ℝ := Real.sqrt (v.1 ^ 2 + v.2 ^ 2)

/-- `Nucleon.electrostatic_force`: repulsive inverse-square impulse,
applied symmetrically to both particles when the (epsilon-floored)
distance is below `100`.  Written over `ℝ` because the source computes a
Euclidean norm. -/
def Nucleon.electrostatic_force (self other : Nucleon ℝ) : Nucleon ℝ × Nucleon ℝ :=
  let delta := other.pos - self.pos
  let distance := max (norm2 delta) (1 / 10)
  if distance < 100 then
    let force := (ELECTROSTATIC_CONSTANT / (distance ^ 2 + 1)) • (distance⁻¹ • delta)
    ({ self with vel := self.vel - (1 / 2 : ℝ) • force },
     { other with vel := other.vel + (1 / 2 : ℝ) • force })
  else (self, other)

/-- `Nucleon.strong_force`: short-range repulsion below distance `8`,
exponentially decaying attraction for distances in `[8, 20)`, zero force
term otherwise; inside the interaction radius a proximity-scaled damping
correction on the relative velocity is applied after the impulse. -/
def Nucleon.strong_force (self other : Nucleon ℝ) : Nucleon ℝ × Nucleon ℝ :=
  let delta := other.pos - self.pos
  let distance := max (norm2 delta) (1 / 10)
  if distance < STRONG_FORCE_RADIUS then
    let force : ℝ × ℝ :=
      if distance < 8 then
        (-STRONG_FORCE_CONSTANT * (8 - distance)) • (distance⁻¹ • delta)
      else if distance < 20 then
        (STRONG_FORCE_CONSTANT * Real.exp (-distance / 5)) • (distance⁻¹ • delta)
      else (0, 0)
    let sv := self.vel + (1 / 2 : ℝ) • force
    let ov := other.vel - (1 / 2 : ℝ) • force
    let rel_vel := ov - sv
    let damping := (SPRING_DAMPENING * (1 - distance / STRONG_FORCE_RADIUS)) • rel_vel
    ({ self with vel := sv + damping }, { other with vel := ov - damping })
  else (self, other)

/-- The loop body of `Nucleon.apply_forces` for a single `other`: the
electrostatic force is applied only when both particles are protons,
then the strong force is applied unconditionally. -/
def Nucleon.force_pair (self other : Nucleon ℝ) : Nucleon ℝ × Nucleon ℝ :=
  let eres :=
    if self.is_proton && other.is_proton then Nucleon.electrostatic_force self other
    else (self, other)
  Nucleon.strong_force eres.1 eres.2

/-- The electrostatic force preserves the total velocity of the pair. -/
lemma vel_sum_electrostatic (self other : Nucleon ℝ) :
    (Nucleon.electrostatic_force self other).1.vel +
        (Nucleon.electrostatic_force self other).2.vel =
      self.vel + other.vel := by
  simp only [Nucleon.electrostatic_force]
  split_ifs <;> simp

/-- The strong force (impulse plus damping correction) preserves the
total velocity of the pair. -/
lemma vel_sum_strong (self other : Nucleon ℝ) :
    (Nucleon.strong_force self other).1.vel + (Nucleon.strong_force self other).2.vel =
      self.vel + other.vel := by
  simp only [Nucleon.strong_force]
  split_ifs <;> simp <;> try abel

/-- Claim C4: for every single pairwise interaction (electrostatic
impulse, strong-force impulse plus its proximity-scaled damping
correction, and the combined per-pair loop body), the velocity changes
applied to the two particles sum to the zero vector, i.e. the total
velocity of the pair is preserved. -/
theorem claim_C4 (self other : Nucleon ℝ) :
    (Nucleon.electrostatic_force self other).1.vel +
          (Nucleon.electrostatic_force self other).2.vel =
        self.vel + other.vel ∧
      (Nucleon.strong_force self other).1.vel + (Nucleon.strong_force self other).2.vel =
        self.vel + other.vel ∧
      (Nucleon.force_pair self other).1.vel + (Nucleon.force_pair self other).2.vel =
        self.vel + other.vel := by
  refine ⟨vel_sum_electrostatic self other, vel_sum_strong self other, ?_⟩
  unfold Nucleon.force_pair
  split_ifs with h
  · rw [vel_sum_strong, vel_sum_electrostatic]
  · rw [vel_sum_strong]

/-- Claim C5: the electrostatic force is gated on both particles being
protons; for a pair with at least one neutron the per-pair loop body
reduces to the strong force alone, so the electrostatic contribution
changes neither particle's velocity at any distance. -/
theorem claim_C5 (self other : Nucleon ℝ)
    (h : self.is_proton = false ∨ other.is_proton = false) :
    Nucleon.force_pair self other = Nucleon.strong_force self other := by
  unfold Nucleon.force_pair
  rcases h with h | h <;> simp [h]

/-- Witness for claim C5: a neutron-neutron pair well inside the
electrostatic radius. -/
theorem claim_C5_witness :
    (⟨false, (0, 0), (0, 0), 0, 0, 0⟩ : Nucleon ℝ).is_proton = false ∧
      Nucleon.force_pair ⟨false, (0, 0), (0, 0), 0, 0, 0⟩ ⟨false, (5, 0), (0, 0), 0, 0, 0⟩ =
        Nucleon.strong_force ⟨false, (0, 0), (0, 0), 0, 0, 0⟩ ⟨false, (5, 0), (0, 0), 0, 0, 0⟩ :=
  ⟨rfl, claim_C5 _ _ (Or.inl rfl)⟩

/-- The norm of a vector on the nonnegative x-axis. -/
lemma norm2_mk_zero (x : ℝ) (hx : 0 ≤ x) : norm2 (x, 0) = x := by
  unfold norm2
  norm_num [Real.sqrt_sq hx]

/-- First particle of the claim C3 counterexample: a neutron at the
origin, at rest. -/
def cexA : Nucleon ℝ := ⟨false, (0, 0), (0, 0), 0, 0, 0⟩

/-- Second particle of the claim C3 counterexample: a neutron at
distance `25` (inside the strong-force radius `30`, beyond the
attractive band `[8, 20)`), at rest. -/
def cexB : Nucleon ℝ := ⟨false, (25, 0), (0, 0), 0, 0, 0⟩

/-- The distance of the claim C3 counterexample pair is `25`. -/
lemma cex_dist : max (norm2 (cexB.pos - cexA.pos)) (1 / 10) = 25 := by
  have h : cexB.pos - cexA.pos = ((25 : ℝ), (0 : ℝ)) := by
    simp [cexA, cexB, Prod.ext_iff]
  rw [h, norm2_mk_zero 25 (by norm_num)]
  norm_num

/-- Counterexample to claim C3 as stated: the pair `cexA`, `cexB` is at
distance `25`, inside `[8, STRONG_FORCE_RADIUS)`, yet the strong force
changes neither velocity — the claimed nonzero attractive impulse for
the whole mid-range regime does not exist beyond distance `20`. -/
theorem claim_C3_counterexample :
    (8 ≤ max (norm2 (cexB.pos - cexA.pos)) (1 / 10) ∧
        max (norm2 (cexB.pos - cexA.pos)) (1 / 10) < STRONG_FORCE_RADIUS) ∧
      (Nucleon.strong_force cexA cexB).1.vel = cexA.vel ∧
      (Nucleon.strong_force cexA cexB).2.vel = cexB.vel := by
  have hd := cex_dist
  refine ⟨⟨by rw [hd]; norm_num, by rw [hd]; unfold STRONG_FORCE_RADIUS; norm_num⟩, ?_, ?_⟩ <;>
    · simp only [Nucleon.strong_force, hd, STRONG_FORCE_RADIUS]
      norm_num [cexA, cexB, Prod.ext_iff]

/-- Claim C3, amended: the attractive, exponentially decaying impulse
exists exactly on the band `8 ≤ d < 20`; for `20 ≤ d < 30` the force
term is zero (for a pair at relative rest nothing changes), and at or
beyond the radius the strong force does nothing at all. -/
theorem claim_C3_amended (a b : Nucleon ℝ) (d : ℝ)
    (hd : d = max (norm2 (b.pos - a.pos)) (1 / 10)) :
    (8 ≤ d → d < 20 → a.vel = b.vel →
      ∃ m : ℝ, 0 < m ∧
        m = (1 / 2 - SPRING_DAMPENING * (1 - d / STRONG_FORCE_RADIUS)) *
              (STRONG_FORCE_CONSTANT * Real.exp (-d / 5)) / d ∧
        (Nucleon.strong_force a b).1.vel = a.vel + m • (b.pos - a.pos) ∧
        (Nucleon.strong_force a b).2.vel = b.vel - m • (b.pos - a.pos)) ∧
    (20 ≤ d → d < 30 → a.vel = b.vel →
      (Nucleon.strong_force a b).1.vel = a.vel ∧
      (Nucleon.strong_force a b).2.vel = b.vel) ∧
    (30 ≤ d → Nucleon.strong_force a b = (a, b)) := by
  have hsfr : (STRONG_FORCE_RADIUS : ℝ) = 30 := rfl
  have hsfc : (STRONG_FORCE_CONSTANT : ℝ) = 10 := rfl
  have hsd : (SPRING_DAMPENING : ℝ) = 3 / 10 := rfl
  refine ⟨?_, ?_, ?_⟩
  · intro h8 h20 hvel
    have hdpos : (0 : ℝ) < d := by linarith
    have hexp : 0 < Real.exp (-d / 5) := Real.exp_pos _
    refine ⟨_, ?_, rfl, ?_, ?_⟩
    · rw [hsd, hsfr, hsfc]
      have hcoef : (0 : ℝ) < 1 / 2 - 3 / 10 * (1 - d / 30) := by nlinarith
      positivity
    · simp only [Nucleon.strong_force, ← hd, hsfr, hsfc, hsd]
      rw [if_pos (by linarith), if_neg (by linarith), if_pos h20]
      simp only [hvel, smul_smul]
      ext <;> simp <;> ring
    · simp only [Nucleon.strong_force, ← hd, hsfr, hsfc, hsd]
      rw [if_pos (by linarith), if_neg (by linarith), if_pos h20]
      simp only [hvel, smul_smul]
      ext <;> simp <;> ring
  · intro h20 h30 hvel
    constructor <;>
      · simp only [Nucleon.strong_force, ← hd, hsfr]
        rw [if_pos (by linarith), if_neg (by linarith), if_neg (by linarith)]
        simp [hvel]
  · intro h30
    simp only [Nucleon.strong_force, ← hd, hsfr]
    rw [if_neg (by linarith)]

/-- Witness for claim C3 as amended: two neutrons at distance `10`, at
rest — the strong force gives the first particle a positive velocity
along the separation vector. -/
theorem claim_C3_witness :
    ∃ m : ℝ, 0 < m ∧
      (Nucleon.strong_force ⟨false, (0, 0), (0, 0), 0, 0, 0⟩
            ⟨false, (10, 0), (0, 0), 0, 0, 0⟩).1.vel =
        (0, 0) + m • ((10, 0) - ((0 : ℝ), (0 : ℝ))) := by
  have hd : (10 : ℝ) =
      max (norm2 ((⟨false, (10, 0), (0, 0), 0, 0, 0⟩ : Nucleon ℝ).pos -
        (⟨false, (0, 0), (0, 0), 0, 0, 0⟩ : Nucleon ℝ).pos)) (1 / 10) := by
    have h : (⟨false, (10, 0), (0, 0), 0, 0, 0⟩ : Nucleon ℝ).pos -
        (⟨false, (0, 0), (0, 0), 0, 0, 0⟩ : Nucleon ℝ).pos = ((10 : ℝ), (0 : ℝ)) := by
      simp [Prod.ext_iff]
    rw [h, norm2_mk_zero 10 (by norm_num)]
    norm_num
  obtain ⟨m, hm, hmeq, h1, h2⟩ :=
    (claim_C3_amended ⟨false, (0, 0), (0, 0), 0, 0, 0⟩ ⟨false, (10, 0), (0, 0), 0, 0, 0⟩
        10 hd).1 (by norm_num) (by norm_num) rfl
  exact ⟨m, hm, h1⟩

/-- Python float modulo with a positive modulus, on finite values:
`x % w = x - w * floor(x / w)`, the representative in `[0, w)`. -/
def pmod (x w : ℝ) : ℝ := x - w * (⌊x / w⌋ : ℝ)

/-- Wrapping is the identity on values already inside the domain. -/
lemma pmod_eq_self (x w : ℝ) (h0 : 0 ≤ x) (hxw : x < w) : pmod x w = x := by
  have hw : 0 < w := lt_of_le_of_lt h0 hxw
  have hfl : ⌊x / w⌋ = 0 := by
    rw [Int.floor_eq_zero_iff]
    constructor
    · exact div_nonneg h0 hw.le
    · rw [div_lt_one hw]
      exact hxw
  simp [pmod, hfl]

/-- `Nucleon.move`: integrate position by velocity
(`self.pos += self.vel`), then wrap both coordinates around the domain
edges (`self.pos[0] %= WIDTH; self.pos[1] %= HEIGHT`).  The source
contains no finiteness check. -/
def Nucleon.move (self : Nucleon ℝ) : Nucleon ℝ :=
  { self with
    pos := (pmod (self.pos + self.vel).1 WIDTH, pmod (self.pos + self.vel).2 HEIGHT) }

end

/-- A NumPy float coordinate, abstracted for the finiteness analysis of
`Nucleon.move`: `some x` is a finite value with exact magnitude `x`,
`none` is any non-finite value (`nan` or a signed infinity). -/
abbrev FVal : Type := Option ℝ

/-- NumPy addition on float coordinates (`self.pos += self.vel`
componentwise): any non-finite operand makes the result non-finite. -/
def fadd : FVal → FVal → FVal
  | some a, some b => some (a + b)
  | _, _ => none

noncomputable section

/-- NumPy in-place float modulo by a positive finite modulus
(`%= WIDTH`): a finite value wraps into `[0, w)`; `nan % w` and
`inf % w` are `nan`, i.e. non-finite stays non-finite. -/
def fmod (x : FVal) (w : ℝ) : FVal := x.map (fun a => pmod a w)

/-- `Nucleon.move` on one particle's coordinates under NumPy float
semantics: integrate, then wrap.  This is the float-aware counterpart
of `Nucleon.move`, used to settle what happens to non-finite
coordinates. -/
def moveF (pos vel : FVal × FVal) : FVal × FVal :=
  (fmod (fadd pos.1 vel.1) WIDTH, fmod (fadd pos.2 vel.2) HEIGHT)

/-- Adding to a non-finite left operand is non-finite. -/
lemma fadd_none_left (x : FVal) : fadd none x = none := by
  cases x <;> rfl

/-- Adding a non-finite right operand is non-finite. -/
lemma fadd_none_right (x : FVal) : fadd x none = none := by
  cases x <;> rfl

/-- Counterexample to claim C2 as stated: a particle whose x-position
became non-finite is NOT reset to the domain center
`(WIDTH/2, HEIGHT/2)` by position integration — the non-finite value
simply propagates through `+=` and `%=`. -/
theorem claim_C2_counterexample :
    moveF (none, some 0) (some 0, some 0) = (none, some 0) ∧
      (moveF (none, some 0) (some 0, some 0)).1 ≠ some ((WIDTH : ℝ) / 2) := by
  have h : moveF (none, some 0) (some 0, some 0) = (none, some 0) := by
    unfold moveF fmod fadd
    simp [pmod_eq_self 0 WIDTH le_rfl (by norm_num [WIDTH]),
      pmod_eq_self 0 HEIGHT le_rfl (by norm_num [HEIGHT])]
  exact ⟨h, by rw [h]; simp⟩

/-- Claim C2, amended: `Nucleon.move` wraps finite coordinates into the
domain and performs no finiteness correction whatsoever — a non-finite
position or velocity coordinate leaves the corresponding position
coordinate non-finite after integration, and in particular never equal
to the domain-center coordinate. -/
theorem claim_C2_amended (pos vel : FVal × FVal) :
    ((pos.1 = none ∨ vel.1 = none) →
      (moveF pos vel).1 = none ∧ (moveF pos vel).1 ≠ some ((WIDTH : ℝ) / 2)) ∧
    ((pos.2 = none ∨ vel.2 = none) →
      (moveF pos vel).2 = none ∧ (moveF pos vel).2 ≠ some ((HEIGHT : ℝ) / 2)) := by
  constructor
  · intro h
    have hnone : (moveF pos vel).1 = none := by
      rcases h with h | h <;>
        simp [moveF, fmod, h, fadd_none_left, fadd_none_right]
    exact ⟨hnone, by rw [hnone]; simp⟩
  · intro h
    have hnone : (moveF pos vel).2 = none := by
      rcases h with h | h <;>
        simp [moveF, fmod, h, fadd_none_left, fadd_none_right]
    exact ⟨hnone, by rw [hnone]; simp⟩

/-- Witness for claim C2 as amended, at a concrete non-finite input. -/
theorem claim_C2_witness :
    (((none, some 0) : FVal × FVal).1 = none ∨
        ((some 1, some 0) : FVal × FVal).1 = none) ∧
      (moveF ((none, some 0) : FVal × FVal) ((some 1, some 0) : FVal × FVal)).1 = none ∧
      (moveF ((none, some 0) : FVal × FVal) ((some 1, some 0) : FVal × FVal)).1 ≠
        some ((WIDTH : ℝ) / 2) :=
  ⟨Or.inl rfl, (claim_C2_amended ((none, some 0) : FVal × FVal)
    ((some 1, some 0) : FVal × FVal)).1 (Or.inl rfl)⟩

end

noncomputable section

/-- The neighbour/bond accumulation of `Nucleon.calculate_neighbors`
for the particle `self` sitting at index `i`: for every other particle
within the strong-force radius the neighbour count increases, and
within distance `15` the bond strength accumulates `15 - distance`. -/
def neighborAccum (self : Nucleon ℝ) (i : ℕ) (ns : List (Nucleon ℝ)) : ℕ × ℝ :=
  (List.range ns.length).foldl
    (fun acc j =>
      if j = i then acc
      else
        match ns[j]? with
        | none => acc
        | some nb =>
          let distance := norm2 (nb.pos - self.pos)
          if distance < STRONG_FORCE_RADIUS then
            (acc.1 + 1, if distance < 15 then acc.2 + (15 - distance) else acc.2)
          else acc)
    (0, 0)

/-- `Nucleon.calculate_neighbors` applied to the particle at index `i`:
reset and recompute its `neighbors` and `bond_strength` fields. -/
def calculate_neighbors (i : ℕ) (ns : List (Nucleon ℝ)) : List (Nucleon ℝ) :=
  match ns[i]? with
  | none => ns
  | some s =>
    ns.set i
      { s with
        neighbors := (neighborAccum s i ns).1
        bond_strength := (neighborAccum s i ns).2 }

/-- One iteration of the `Nucleon.apply_forces` loop: particle `i`
interacts with particle `j` (skipped when `j = i`, the `other is not
self` test), both list entries being replaced by the mutated pair. -/
def forceStep (i : ℕ) (acc : List (Nucleon ℝ)) (j : ℕ) : List (Nucleon ℝ) :=
  if j = i then acc
  else
    match acc[i]?, acc[j]? with
    | some s, some nb =>
      (acc.set i (Nucleon.force_pair s nb).1).set j (Nucleon.force_pair s nb).2
    | _, _ => acc

/-- `Nucleon.apply_forces` for the particle at index `i`: interact with
every other particle in list order, mutating both velocities each
time. -/
def apply_forces (i : ℕ) (ns : List (Nucleon ℝ)) : List (Nucleon ℝ) :=
  (List.range ns.length).foldl (forceStep i) ns

/-- The `self.move()` step seen from the list: replace the particle at
index `i` by its moved copy. -/
def integrateAt (i : ℕ) (ns : List (Nucleon ℝ)) : List (Nucleon ℝ) :=
  match ns[i]? with
  | none => ns
  | some s => ns.set i s.move

/-- `Nucleon.update` for the particle at index `i`:
`calculate_neighbors`, then `apply_forces`, then `move`, then
`check_decay` with random draw `r`; `none` is a runtime fault. -/
def update (r : ℝ) (i : ℕ) (ns : List (Nucleon ℝ)) :
    Option (List (Nucleon ℝ) × Option (DecayEvent ℝ)) :=
  let ns3 := integrateAt i (apply_forces i (calculate_neighbors i ns))
  match ns3[i]? with
  | none => some (ns3, none)
  | some s =>
    match check_decay r s ns3 with
    | none => none
    | some (s2, ev) => some (ns3.set i s2, ev)

/-- The per-tick update loop of the main program
(`for nucleon in nucleons: decay_result = nucleon.update(nucleons); ...`),
run over the given index order: each particle in turn computes its
forces against the CURRENT list (in which earlier particles have
already moved) and then moves; decay effects are collected in order.
The draw for particle `i` is `rs i`; `none` is a runtime fault. -/
def runUpdatesOn (rs : ℕ → ℝ) : List ℕ → List (Nucleon ℝ) →
    Option (List (Nucleon ℝ) × List (DecayEvent ℝ))
  | [], ns => some (ns, [])
  | i :: is2, ns =>
    match update (rs i) i ns with
    | none => none
    | some (ns2, ev) =>
      match runUpdatesOn rs is2 ns2 with
      | none => none
      | some (ns3, evs) => some (ns3, ev.toList ++ evs)

/-- One tick of the main update loop (source lines 234-238). -/
def runUpdates (rs : ℕ → ℝ) (ns : List (Nucleon ℝ)) :
    Option (List (Nucleon ℝ) × List (DecayEvent ℝ)) :=
  runUpdatesOn rs (List.range ns.length) ns

/-- Modelled from the spec: the per-tick ordering of spec section 4.5,
in which the neighbour/force pass for ALL particles runs before any
particle integrates its position, then all particles move, then decay
is evaluated per particle.  This definition exists only as the
comparison point for the claimed ordering; the source's actual loop is
`runUpdates`. -/
def runUpdatesAllForcesFirst (rs : ℕ → ℝ) (ns : List (Nucleon ℝ)) :
    Option (List (Nucleon ℝ) × List (DecayEvent ℝ)) :=
  let nsF := (List.range ns.length).foldl
    (fun acc i => apply_forces i (calculate_neighbors i acc)) ns
  let nsM := (List.range ns.length).foldl
    (fun acc i =>
      match acc[i]? with
      | none => acc
      | some s => acc.set i s.move)
    nsF
  (List.range ns.length).foldl
    (fun acc i =>
      match acc with
      | none => none
      | some (cur, evs) =>
        match cur[i]? with
        | none => some (cur, evs)
        | some s =>
          match check_decay (rs i) s cur with
          | none => none
          | some (s2, ev) => some (cur.set i s2, evs ++ ev.toList))
    (some (nsM, []))

/-- Setting a list entry to the value it already holds is a no-op. -/
lemma set_of_getElem? {β : Type} (l : List β) (i : ℕ) (v : β) (h : l[i]? = some v) :
    l.set i v = l := by
  induction l generalizing i with
  | nil => simp at h
  | cons a t ih =>
    cases i with
    | zero =>
      simp only [List.getElem?_cons_zero, Option.some.injEq] at h
      simp [h]
    | succ n =>
      simp only [List.getElem?_cons_succ] at h
      simp [ih n h]

/-- Neither force changes any position: `electrostatic_force`. -/
lemma electrostatic_force_pos (s nb : Nucleon ℝ) :
    (Nucleon.electrostatic_force s nb).1.pos = s.pos ∧
      (Nucleon.electrostatic_force s nb).2.pos = nb.pos := by
  simp only [Nucleon.electrostatic_force]
  split_ifs <;> simp

/-- Neither force changes any position: `strong_force`. -/
lemma strong_force_pos (s nb : Nucleon ℝ) :
    (Nucleon.strong_force s nb).1.pos = s.pos ∧
      (Nucleon.strong_force s nb).2.pos = nb.pos := by
  simp only [Nucleon.strong_force]
  split_ifs <;> simp

/-- Neither force changes any position: the per-pair loop body. -/
lemma force_pair_pos (s nb : Nucleon ℝ) :
    (Nucleon.force_pair s nb).1.pos = s.pos ∧ (Nucleon.force_pair s nb).2.pos = nb.pos := by
  unfold Nucleon.force_pair
  split_ifs with h
  · constructor
    · rw [(strong_force_pos _ _).1, (electrostatic_force_pos s nb).1]
    · rw [(strong_force_pos _ _).2, (electrostatic_force_pos s nb).2]
  · exact strong_force_pos s nb

/-- The list of positions, the projection under which the force pass is
invariant. -/
def posList (ns : List (Nucleon ℝ)) : List (ℝ × ℝ) := ns.map Nucleon.pos

/-- One force-loop iteration does not change any position. -/
lemma posList_forceStep (i : ℕ) (acc : List (Nucleon ℝ)) (j : ℕ) :
    posList (forceStep i acc j) = posList acc := by
  unfold forceStep
  split_ifs with hji
  · rfl
  rcases hi : acc[i]? with _ | s
  · simp
  rcases hj : acc[j]? with _ | nb
  · simp
  simp only [posList, List.map_set]
  rw [(force_pair_pos s nb).1, (force_pair_pos s nb).2]
  rw [set_of_getElem? _ i s.pos (by simp [hi]),
    set_of_getElem? _ j nb.pos (by simp [hj])]

/-- The whole force pass for one particle does not change any
position. -/
lemma posList_apply_forces (i : ℕ) (ns : List (Nucleon ℝ)) :
    posList (apply_forces i ns) = posList ns := by
  unfold apply_forces
  generalize List.range ns.length = l
  induction l generalizing ns with
  | nil => rfl
  | cons j t ih =>
    rw [List.foldl_cons, ih, posList_forceStep]

/-- Recomputing neighbour data does not change any position. -/
lemma posList_calculate_neighbors (i : ℕ) (ns : List (Nucleon ℝ)) :
    posList (calculate_neighbors i ns) = posList ns := by
  unfold calculate_neighbors
  rcases hi : ns[i]? with _ | s
  · rfl
  simp only [posList, List.map_set]
  exact set_of_getElem? _ i s.pos (by simp [hi])

/-- `posList` determines lengths. -/
lemma length_eq_of_posList {ns ms : List (Nucleon ℝ)} (h : posList ns = posList ms) :
    ns.length = ms.length := by
  have := congrArg List.length h
  simpa [posList] using this

/-- Positions seen through `posList`. -/
lemma getElem?_map_pos (ns : List (Nucleon ℝ)) (j : ℕ) :
    (posList ns)[j]? = (ns[j]?).map Nucleon.pos := by
  simp [posList]

/-- `update` preserves the length of the particle list. -/
lemma update_length (r : ℝ) (i : ℕ) (ns : List (Nucleon ℝ))
    (res : List (Nucleon ℝ) × Option (DecayEvent ℝ)) (h : update r i ns = some res) :
    res.1.length = ns.length := by
  have h2 : (integrateAt i (apply_forces i (calculate_neighbors i ns))).length = ns.length := by
    have e1 := length_eq_of_posList (posList_apply_forces i (calculate_neighbors i ns))
    have e2 := length_eq_of_posList (posList_calculate_neighbors i ns)
    have e3 : (integrateAt i (apply_forces i (calculate_neighbors i ns))).length =
        (apply_forces i (calculate_neighbors i ns)).length := by
      unfold integrateAt
      split <;> simp
    omega
  simp only [update] at h
  split at h
  · rcases h with ⟨⟩
    exact h2
  · split at h
    · exact absurd h (by simp)
    · rcases h with ⟨⟩
      simpa using h2

/-- `update` for particle `i` does not change the position of any OTHER
particle: every particle not yet processed by the tick loop is still at
its pre-integration position. -/
lemma update_pos_ne (r : ℝ) (i : ℕ) (ns : List (Nucleon ℝ))
    (res : List (Nucleon ℝ) × Option (DecayEvent ℝ)) (h : update r i ns = some res)
    (j : ℕ) (hj : j ≠ i) : (res.1[j]?).map Nucleon.pos = (ns[j]?).map Nucleon.pos := by
  have hforces :
      ((apply_forces i (calculate_neighbors i ns))[j]?).map Nucleon.pos =
        (ns[j]?).map Nucleon.pos := by
    rw [← getElem?_map_pos, ← getElem?_map_pos, posList_apply_forces,
      posList_calculate_neighbors]
  have hint :
      ((integrateAt i (apply_forces i (calculate_neighbors i ns)))[j]?).map Nucleon.pos =
        (ns[j]?).map Nucleon.pos := by
    unfold integrateAt
    split
    · exact hforces
    · rw [List.getElem?_set_ne (Ne.symm hj)]
      exact hforces
  simp only [update] at h
  split at h
  · rcases h with ⟨⟩
    exact hint
  · split at h
    · exact absurd h (by simp)
    · rcases h with ⟨⟩
      rw [List.getElem?_set_ne (Ne.symm hj)]
      exact hint

/-- Through any run of the update loop, a particle whose index was not
processed keeps its position. -/
lemma runUpdatesOn_pos_not_mem (rs : ℕ → ℝ) (idxs : List ℕ) (ns : List (Nucleon ℝ))
    (res : List (Nucleon ℝ) × List (DecayEvent ℝ)) (h : runUpdatesOn rs idxs ns = some res)
    (j : ℕ) (hj : j ∉ idxs) :
    (res.1[j]?).map Nucleon.pos = (ns[j]?).map Nucleon.pos := by
  induction idxs generalizing ns res with
  | nil =>
    unfold runUpdatesOn at h
    rcases h with ⟨⟩
    rfl
  | cons i t ih =>
    unfold runUpdatesOn at h
    rcases hu : update (rs i) i ns with _ | ⟨ns2, ev⟩ <;> simp only [hu] at h
    · exact absurd h (by simp)
    · rcases hr : runUpdatesOn rs t ns2 with _ | ⟨ns3, evs⟩ <;> simp only [hr] at h
      · exact absurd h (by simp)
      · rcases h with ⟨⟩
        have hj1 : j ≠ i := fun he => hj (by simp [he])
        have hj2 : j ∉ t := fun he => hj (by simp [he])
        rw [ih ns2 ⟨ns3, evs⟩ hr hj2, update_pos_ne (rs i) i ns ⟨ns2, ev⟩ hu j hj1]

/-- The update loop preserves the length of the particle list. -/
lemma runUpdatesOn_length (rs : ℕ → ℝ) (idxs : List ℕ) (ns : List (Nucleon ℝ))
    (res : List (Nucleon ℝ) × List (DecayEvent ℝ))
    (h : runUpdatesOn rs idxs ns = some res) : res.1.length = ns.length := by
  induction idxs generalizing ns res with
  | nil =>
    unfold runUpdatesOn at h
    rcases h with ⟨⟩
    rfl
  | cons i t ih =>
    unfold runUpdatesOn at h
    rcases hu : update (rs i) i ns with _ | ⟨ns2, ev⟩ <;> simp only [hu] at h
    · exact absurd h (by simp)
    · rcases hr : runUpdatesOn rs t ns2 with _ | ⟨ns3, evs⟩ <;> simp only [hr] at h
      · exact absurd h (by simp)
      · rcases h with ⟨⟩
        rw [ih ns2 ⟨ns3, evs⟩ hr, update_length (rs i) i ns ⟨ns2, ev⟩ hu]

/-- Claim C1, amended: the tick loop updates particles strictly
sequentially, so when the loop is about to process index `k`, every
particle with index `at least k` (not yet processed) still stands at
its pre-integration position; particles already processed may have
moved, and their updated positions ARE what later force computations
observe. -/
theorem claim_C1_amended (rs : ℕ → ℝ) (ns : List (Nucleon ℝ)) (k : ℕ)
    (res : List (Nucleon ℝ) × List (DecayEvent ℝ))
    (h : runUpdatesOn rs (List.range k) ns = some res) :
    ∀ j, k ≤ j → (res.1[j]?).map Nucleon.pos = (ns[j]?).map Nucleon.pos := by
  intro j hj
  exact runUpdatesOn_pos_not_mem rs (List.range k) ns res h j (by simp; omega)

/-- Count of protons plus count of neutrons is the particle count. -/
lemma proton_neutron_count (l : List (Nucleon ℝ)) :
    (l.filter (fun n => n.is_proton)).length +
        (l.filter (fun n => !n.is_proton)).length = l.length := by
  induction l with
  | nil => rfl
  | cons a t ih =>
    cases ha : a.is_proton <;> simp [List.filter_cons, ha] <;> omega

/-- Claim C8: a tick of the update loop never changes the particle
count — decay flips `is_proton` in place via `List.set`, so
`count(protons) + count(neutrons)` is the same before and after, and no
particle is created or destroyed. -/
theorem claim_C8 (rs : ℕ → ℝ) (ns : List (Nucleon ℝ))
    (res : List (Nucleon ℝ) × List (DecayEvent ℝ)) (h : runUpdates rs ns = some res) :
    res.1.length = ns.length ∧
      (res.1.filter (fun n => n.is_proton)).length +
          (res.1.filter (fun n => !n.is_proton)).length =
        (ns.filter (fun n => n.is_proton)).length +
          (ns.filter (fun n => !n.is_proton)).length := by
  have hlen : res.1.length = ns.length :=
    runUpdatesOn_length rs (List.range ns.length) ns res h
  refine ⟨hlen, ?_⟩
  rw [proton_neutron_count, proton_neutron_count, hlen]

/-- A helper for concrete evaluations: the norm of a vector on the
nonnegative x-axis, stated so that the sign condition can be discharged
by the simplifier. -/
lemma norm2_mk_zero_neg (x : ℝ) (hx : x ≤ 0) : norm2 (x, 0) = -x := by
  unfold norm2
  rw [show x ^ 2 + (0 : ℝ) ^ 2 = (-x) ^ 2 by ring]
  exact Real.sqrt_sq (by linarith)

/-- The epsilon floor is the identity above the epsilon. -/
lemma max_eps (x : ℝ) (hx : 1 / 10 ≤ x) : max x (1 / 10) = x := max_eq_left hx

/-- When the gate draw exceeds the decay probability, `check_decay`
does nothing. -/
lemma check_decay_gate (r : ℝ) (self : Nucleon ℝ) (ns : List (Nucleon ℝ))
    (h : BETA_DECAY_PROBABILITY < r) : check_decay r self ns = some (self, none) := by
  unfold check_decay
  rw [if_pos h]

/-- First particle of the concrete tick: a neutron at the origin moving
right with speed `2`. -/
def tickA : Nucleon ℝ := ⟨false, (0, 0), (2, 0), 0, 0, 0⟩

/-- Second particle of the concrete tick: a neutron at `(31, 0)` — just
outside the strong-force radius — at rest. -/
def tickB : Nucleon ℝ := ⟨false, (31, 0), (0, 0), 0, 0, 0⟩

/-- `tickA` after its own update: moved to `(2, 0)`, velocity
unchanged (no interaction at distance `31`). -/
def tickA1 : Nucleon ℝ := ⟨false, (2, 0), (2, 0), 0, 0, 0⟩

/-- `tickB` after its neighbour recount against the already-moved
`tickA1` (now at distance `29 < 30`). -/
def tickB1 : Nucleon ℝ := ⟨false, (31, 0), (0, 0), 0, 0, 1⟩

/-- `tickA1` after receiving the damping back-reaction from `tickB`'s
force pass. -/
def tickA2 : Nucleon ℝ := ⟨false, (2, 0), (99 / 50, 0), 0, 0, 0⟩

/-- `tickB1` after its own force pass: the proximity-scaled damping
against the already-moved `tickA1` accelerates it. -/
def tickBv : Nucleon ℝ := ⟨false, (31, 0), (1 / 50, 0), 0, 0, 1⟩

/-- `tickBv` after moving. -/
def tickB2 : Nucleon ℝ := ⟨false, (1551 / 50, 0), (1 / 50, 0), 0, 0, 1⟩

/-- At distance `31` the pair interaction does nothing. -/
lemma force_pair_tickAB : Nucleon.force_pair tickA tickB = (tickA, tickB) := by
  unfold Nucleon.force_pair Nucleon.strong_force
  norm_num [tickA, tickB, norm2_mk_zero, max_eps, STRONG_FORCE_RADIUS]

/-- At distance `31` the reversed pair interaction does nothing. -/
lemma force_pair_tickBA : Nucleon.force_pair tickB tickA = (tickB, tickA) := by
  unfold Nucleon.force_pair Nucleon.strong_force
  norm_num [tickA, tickB, norm2_mk_zero_neg, max_eps, STRONG_FORCE_RADIUS]

/-- Neighbour recount of `tickA` against `[tickA, tickB]`: nothing in
range. -/
lemma calc_tickA : calculate_neighbors 0 [tickA, tickB] = [tickA, tickB] := by
  unfold calculate_neighbors neighborAccum
  norm_num [tickA, tickB, norm2_mk_zero, STRONG_FORCE_RADIUS, List.range_succ]

/-- Neighbour recount of `tickB` against `[tickA, tickB]`: nothing in
range. -/
lemma calc_tickB : calculate_neighbors 1 [tickA, tickB] = [tickA, tickB] := by
  unfold calculate_neighbors neighborAccum
  norm_num [tickA, tickB, norm2_mk_zero_neg, STRONG_FORCE_RADIUS, List.range_succ]

/-- Force pass of `tickA` against `[tickA, tickB]`: no interaction. -/
lemma forces_tickA : apply_forces 0 [tickA, tickB] = [tickA, tickB] := by
  unfold apply_forces
  norm_num [List.range_succ, forceStep, force_pair_tickAB]

/-- Force pass of `tickB` against `[tickA, tickB]`: no interaction. -/
lemma forces_tickB : apply_forces 1 [tickA, tickB] = [tickA, tickB] := by
  unfold apply_forces
  norm_num [List.range_succ, forceStep, force_pair_tickBA]

/-- Moving `tickA`. -/
lemma move_tickA : tickA.move = tickA1 := by
  unfold Nucleon.move
  norm_num [tickA, tickA1, WIDTH, HEIGHT,
    pmod_eq_self 2 200 (by norm_num) (by norm_num),
    pmod_eq_self 0 200 le_rfl (by norm_num)]

/-- Moving `tickB` (at rest) changes nothing. -/
lemma move_tickB : tickB.move = tickB := by
  unfold Nucleon.move
  norm_num [tickB, WIDTH, HEIGHT,
    pmod_eq_self 31 200 (by norm_num) (by norm_num),
    pmod_eq_self 0 200 le_rfl (by norm_num)]

/-- The gate draw used in the concrete tick passes no decay. -/
lemma gate_one : BETA_DECAY_PROBABILITY < (1 : ℝ) := by
  norm_num [BETA_DECAY_PROBABILITY]

/-- The full update of particle `0`: forces computed at distance `31`
(no interaction), then the move to `(2, 0)`. -/
lemma update_tickA : update 1 0 [tickA, tickB] = some ([tickA1, tickB], none) := by
  simp only [update, calc_tickA, forces_tickA, integrateAt]
  norm_num [move_tickA, check_decay_gate _ _ _ gate_one]

/-- Neighbour recount of `tickB` AFTER `tickA` has moved: the distance
is now `29`, inside the radius. -/
lemma calc_tickB1 : calculate_neighbors 1 [tickA1, tickB] = [tickA1, tickB1] := by
  unfold calculate_neighbors neighborAccum
  norm_num [tickA1, tickB, tickB1, norm2_mk_zero_neg, STRONG_FORCE_RADIUS, List.range_succ]

/-- Pair interaction of `tickB1` with the already-moved `tickA1` at
distance `29`: the force term is zero, but the damping correction
transfers `1/50` of velocity. -/
lemma force_pair_tickB1A1 : Nucleon.force_pair tickB1 tickA1 = (tickBv, tickA2) := by
  unfold Nucleon.force_pair Nucleon.strong_force
  norm_num [tickA1, tickB1, tickBv, tickA2, norm2_mk_zero_neg, max_eps,
    STRONG_FORCE_RADIUS, SPRING_DAMPENING, Prod.ext_iff, Prod.smul_mk, smul_eq_mul]

/-- Force pass of `tickB1` against `[tickA1, tickB1]`. -/
lemma forces_tickB1 : apply_forces 1 [tickA1, tickB1] = [tickA2, tickBv] := by
  unfold apply_forces
  norm_num [List.range_succ, forceStep, force_pair_tickB1A1]

/-- Moving `tickBv`. -/
lemma move_tickBv : tickBv.move = tickB2 := by
  unfold Nucleon.move
  norm_num [tickBv, tickB2, WIDTH, HEIGHT, Prod.ext_iff,
    pmod_eq_self (1551 / 50) 200 (by norm_num) (by norm_num),
    pmod_eq_self 0 200 le_rfl (by norm_num)]

/-- The full update of particle `1`, run after particle `0` has already
moved: it sees `tickA1` at distance `29` and picks up velocity. -/
lemma update_tickB : update 1 1 [tickA1, tickB] = some ([tickA2, tickB2], none) := by
  simp only [update, calc_tickB1, forces_tickB1, integrateAt]
  norm_num [move_tickBv, check_decay_gate _ _ _ gate_one]

/-- The source's tick on the concrete pair. -/
lemma code_tick :
    runUpdates (fun _ => (1 : ℝ)) [tickA, tickB] = some ([tickA2, tickB2], []) := by
  have h0 : runUpdatesOn (fun _ => (1 : ℝ)) [] [tickA2, tickB2] =
      some ([tickA2, tickB2], []) := rfl
  have h1 : runUpdatesOn (fun _ => (1 : ℝ)) [1] [tickA1, tickB] =
      some ([tickA2, tickB2], []) := by
    unfold runUpdatesOn
    norm_num [update_tickB, h0]
  unfold runUpdates
  rw [show List.range ([tickA, tickB] : List (Nucleon ℝ)).length = [0, 1] from rfl]
  unfold runUpdatesOn
  norm_num [update_tickA, h1]

/-- The spec-ordered tick on the concrete pair: with all forces
computed before any move, the pair never interacts. -/
lemma spec_tick :
    runUpdatesAllForcesFirst (fun _ => (1 : ℝ)) [tickA, tickB] = some ([tickA1, tickB], []) := by
  unfold runUpdatesAllForcesFirst
  norm_num [List.range_succ, calc_tickA, calc_tickB, forces_tickA, forces_tickB,
    move_tickA, move_tickB, check_decay_gate _ _ _ gate_one]

/-- Counterexample to claim C1 as stated: on this concrete pair the
source's tick differs from the tick that computes all forces on
pre-integration positions — particle `1`'s force computation observes
particle `0` at its already-moved position `(2, 0)` (distance `29`,
inside the radius) instead of its pre-integration position `(0, 0)`
(distance `31`, outside), and picks up a damping impulse that the
claimed ordering forbids. -/
theorem claim_C1_counterexample :
    runUpdates (fun _ => (1 : ℝ)) [tickA, tickB] = some ([tickA2, tickB2], []) ∧
      runUpdatesAllForcesFirst (fun _ => (1 : ℝ)) [tickA, tickB] = some ([tickA1, tickB], []) ∧
      runUpdates (fun _ => (1 : ℝ)) [tickA, tickB] ≠
        runUpdatesAllForcesFirst (fun _ => (1 : ℝ)) [tickA, tickB] := by
  refine ⟨code_tick, spec_tick, ?_⟩
  rw [code_tick, spec_tick]
  intro h
  simp only [Option.some.injEq, Prod.mk.injEq, List.cons.injEq] at h
  have hA : tickA2 = tickA1 := h.1.1
  have h2 : tickA2.vel.1 = tickA1.vel.1 := by rw [hA]
  simp only [tickA2, tickA1] at h2
  norm_num at h2

/-- Witness for claim C1 as amended: after the prefix of the tick that
has processed only particle `0`, particle `1` still holds its
pre-integration position. -/
theorem claim_C1_witness :
    runUpdatesOn (fun _ => (1 : ℝ)) (List.range 1) [tickA, tickB] =
        some ([tickA1, tickB], []) ∧
      (([tickA1, tickB] : List (Nucleon ℝ))[1]?).map Nucleon.pos =
        (([tickA, tickB] : List (Nucleon ℝ))[1]?).map Nucleon.pos := by
  have hrun : runUpdatesOn (fun _ => (1 : ℝ)) (List.range 1) [tickA, tickB] =
      some ([tickA1, tickB], []) := by
    have h0 : runUpdatesOn (fun _ => (1 : ℝ)) [] [tickA1, tickB] =
        some ([tickA1, tickB], []) := rfl
    rw [show List.range 1 = [0] from rfl]
    unfold runUpdatesOn
    norm_num [update_tickA, h0]
  exact ⟨hrun,
    claim_C1_amended (fun _ => (1 : ℝ)) [tickA, tickB] 1 ([tickA1, tickB], []) hrun 1 le_rfl⟩

/-- Witness for claim C8: the concrete tick preserves the particle
count (two particles before, two after; protons plus neutrons
unchanged). -/
theorem claim_C8_witness :
    runUpdates (fun _ => (1 : ℝ)) [tickA, tickB] = some ([tickA2, tickB2], []) ∧
      ([tickA2, tickB2].length = ([tickA, tickB] : List (Nucleon ℝ)).length ∧
        ([tickA2, tickB2].filter (fun n => n.is_proton)).length +
            ([tickA2, tickB2].filter (fun n => !n.is_proton)).length =
          (([tickA, tickB] : List (Nucleon ℝ)).filter (fun n => n.is_proton)).length +
            (([tickA, tickB] : List (Nucleon ℝ)).filter (fun n => !n.is_proton)).length) :=
  ⟨code_tick, claim_C8 (fun _ => (1 : ℝ)) [tickA, tickB] ([tickA2, tickB2], []) code_tick⟩

end

section Fragments

variable {α : Type} [LinearOrderedField α]

/-- Squared Euclidean distance between two positions.  The source
compares `np.linalg.norm(pi - pj) < STRONG_FORCE_RADIUS * 0.7`; both
sides are nonnegative, so this is equivalent to comparing the squared
norm against `(STRONG_FORCE_RADIUS * 0.7)^2` (lemma
`norm2_lt_iff_dist2`), which keeps the adjacency decidable over any
ordered field. -/
def dist2 (p q : α × α) : α := (p.1 - q.1) ^ 2 + (p.2 - q.2) ^ 2

/-- The adjacency relation of `detect_fragments`: the matrix entries
`(i, j)` and `(j, i)` are set for `i < j` exactly when the distance is
below `STRONG_FORCE_RADIUS * 0.7`; the diagonal stays `False`. -/
def adjacent (ps : List (α × α)) (i j : ℕ) : Bool :=
  decide (i ≠ j) &&
    decide (dist2 (ps.getD i (0, 0)) (ps.getD j (0, 0)) <
      (STRONG_FORCE_RADIUS * (7 / 10)) ^ 2)

/-- Squared distance is symmetric. -/
lemma dist2_comm (p q : α × α) : dist2 p q = dist2 q p := by
  unfold dist2
  ring

/-- The adjacency relation is symmetric, as the source builds it. -/
lemma adjacent_symm (ps : List (α × α)) (i j : ℕ) :
    adjacent ps i j = adjacent ps j i := by
  unfold adjacent
  rw [dist2_comm]
  rcases eq_or_ne i j with h | h
  · simp [h]
  · simp [h, Ne.symm h]

/-- Comparing the Euclidean norm of a difference against a positive
bound is the same as comparing the squared distance against the squared
bound: the bridge between the source's `np.linalg.norm` test and the
`dist2` form used by `adjacent`. -/
lemma norm2_lt_iff_dist2 (p q : ℝ × ℝ) (c : ℝ) (hc : 0 < c) :
    norm2 (p - q) < c ↔ dist2 p q < c ^ 2 := by
  unfold norm2 dist2
  rw [Real.sqrt_lt' hc]
  simp

/-- The stack loop of `detect_fragments`, fuel-indexed; the fuel drops
by exactly one per iteration and `n + 1` always suffices (see
`dfsLoop_spec`).  The Lean stack keeps its top at the head, mirroring
Python's `list.pop()` from the tail, so freshly discovered neighbours
(found in increasing index order) are pushed reversed. -/
def dfsLoop (adj : ℕ → ℕ → Bool) (n : ℕ) :
    ℕ → List ℕ → List Bool → List ℕ → List Bool × List ℕ
  | 0, _, visited, comp => (visited, comp)
  | _ + 1, [], visited, comp => (visited, comp)
  | fuel + 1, node :: rest, visited, comp =>
    let fresh := (List.range n).filter (fun j => adj node j && !(visited.getD j false))
    dfsLoop adj n fuel (fresh.reverse ++ rest)
      (fresh.foldl (fun v j => v.set j true) visited) (comp ++ fresh)

/-- The outer loop of `detect_fragments`: start a depth-first search at
every not-yet-visited index, in increasing order, collecting one
component per start. -/
def detectLoop (adj : ℕ → ℕ → Bool) (n : ℕ) :
    List ℕ → List Bool → List (List ℕ) → List (List ℕ)
  | [], _, comps => comps
  | i :: rest, visited, comps =>
    if visited.getD i false then detectLoop adj n rest visited comps
    else
      let res := dfsLoop adj n (n + 1) [i] (visited.set i true) [i]
      detectLoop adj n rest res.1 (comps ++ [res.2])

/-- `detect_fragments`: connected components of the proximity graph
over the particle positions. -/
def detect_fragments (ps : List (α × α)) : List (List ℕ) :=
  if ps = [] then []
  else
    detectLoop (adjacent ps) ps.length (List.range ps.length)
      (List.replicate ps.length false) []

/-- The fragment-id assignment loop of the main program:
`for frag_id, fragment in enumerate(fragments): for n_idx in fragment:
nucleons[n_idx].fragment_id = frag_id`, with the enumeration counter
made explicit. -/
def assignLoop : List (List ℕ) → ℕ → List ℕ → List ℕ
  | [], _, ids => ids
  | comp :: cs, k, ids => assignLoop cs (k + 1) (comp.foldl (fun a idx => a.set idx k) ids)

/-- The whole fragment-id assignment (`enumerate` starts at `0`). -/
def assignFragments (comps : List (List ℕ)) (ids : List ℕ) : List ℕ :=
  assignLoop comps 0 ids

/-- The fragment id a particle index ends up with after detection and
assignment. -/
def fragIdOf (ps : List (α × α)) (i : ℕ) : ℕ :=
  (assignFragments (detect_fragments ps) (List.replicate ps.length 0)).getD i 0

/-- Reading a set entry back, in range. -/
lemma getD_set_self {β : Type} (v : List β) (j : ℕ) (b d : β) (h : j < v.length) :
    (v.set j b).getD j d = b := by
  induction v generalizing j with
  | nil => simp at h
  | cons a t ih =>
    cases j with
    | zero => rfl
    | succ m => exact ih m (by simpa using h)

/-- Reading another entry after a set. -/
lemma getD_set_other {β : Type} (v : List β) (i j : ℕ) (b d : β) (h : i ≠ j) :
    (v.set i b).getD j d = v.getD j d := by
  induction v generalizing i j with
  | nil => simp
  | cons a t ih =>
    cases i with
    | zero =>
      cases j with
      | zero => exact absurd rfl h
      | succ m => rfl
    | succ m =>
      cases j with
      | zero => rfl
      | succ m2 => exact ih m m2 (by omega)

/-- Setting a `false` entry to `true` lowers the `false` count by
one. -/
lemma count_false_set (v : List Bool) (j : ℕ) (h1 : j < v.length)
    (h2 : v.getD j false = false) : (v.set j true).count false + 1 = v.count false := by
  induction v generalizing j with
  | nil => simp at h1
  | cons a t ih =>
    cases j with
    | zero =>
      have : a = false := h2
      subst this
      simp [List.count_cons]
    | succ m =>
      have := ih m (by simpa using h1) h2
      simp [List.count_cons]
      omega

/-- Marking a batch of indices: length is preserved. -/
lemma markAll_length (l : List ℕ) (v : List Bool) :
    (l.foldl (fun v2 j => v2.set j true) v).length = v.length := by
  induction l generalizing v with
  | nil => rfl
  | cons j t ih => simp [ih, List.length_set]

/-- Marking a batch of indices: `true` entries stay `true`. -/
lemma markAll_mono (l : List ℕ) (v : List Bool) (j : ℕ)
    (h : v.getD j false = true) :
    (l.foldl (fun v2 j2 => v2.set j2 true) v).getD j false = true := by
  induction l generalizing v with
  | nil => exact h
  | cons x t ih =>
    simp only [List.foldl_cons]
    apply ih
    show (v.set x true).getD j false = true
    rcases eq_or_ne x j with he | he
    · subst he
      rcases Nat.lt_or_ge x v.length with hlt | hge
      · exact getD_set_self v x true false hlt
      · rw [List.set_eq_of_length_le hge]
        exact h
    · rw [getD_set_other v x j true false he]
      exact h

/-- Marking a batch of indices: every in-range index of the batch reads
back `true`. -/
lemma markAll_mem (l : List ℕ) (v : List Bool) (j : ℕ) (hj : j ∈ l) (hlen : j < v.length) :
    (l.foldl (fun v2 j2 => v2.set j2 true) v).getD j false = true := by
  induction l generalizing v with
  | nil => simp at hj
  | cons x t ih =>
    rcases List.mem_cons.mp hj with he | ht
    · subst he
      exact markAll_mono t (v.set j true) j (getD_set_self v j true false hlen)
    · exact ih (v.set x true) ht (by simp [List.length_set, hlen])

/-- Marking a batch of indices: a `true` reading comes from an old
`true` or from the batch. -/
lemma markAll_rev (l : List ℕ) (v : List Bool) (j : ℕ)
    (h : (l.foldl (fun v2 j2 => v2.set j2 true) v).getD j false = true) :
    v.getD j false = true ∨ j ∈ l := by
  induction l generalizing v with
  | nil => exact Or.inl h
  | cons x t ih =>
    rcases ih _ h with h2 | h2
    · rcases eq_or_ne x j with he | he
      · exact Or.inr (by simp [he])
      · rw [getD_set_other v x j true false he] at h2
        exact Or.inl h2
    · exact Or.inr (by simp [h2])

/-- Marking a nodup batch of fresh in-range indices lowers the `false`
count by the batch size. -/
lemma markAll_count (l : List ℕ) (v : List Bool) (hnd : l.Nodup)
    (hmem : ∀ j ∈ l, j < v.length ∧ v.getD j false = false) :
    (l.foldl (fun v2 j2 => v2.set j2 true) v).count false + l.length = v.count false := by
  induction l generalizing v with
  | nil => simp
  | cons x t ih =>
    have hx := hmem x (by simp)
    have hstep := count_false_set v x hx.1 hx.2
    have hprem : ∀ j ∈ t, j < (v.set x true).length ∧ (v.set x true).getD j false = false := by
      intro j hj
      have hne : x ≠ j := by
        rintro rfl
        exact (List.nodup_cons.mp hnd).1 hj
      refine ⟨by simp [List.length_set, (hmem j (by simp [hj])).1], ?_⟩
      rw [getD_set_other v x j true false hne]
      exact (hmem j (by simp [hj])).2
    have hrec := ih (v.set x true) ((List.nodup_cons.mp hnd).2) hprem
    simp only [List.foldl_cons, List.length_cons]
    omega

/-- The full invariant of the stack loop of `detect_fragments`.
Starting from a state whose stack entries are all listed in the
component, whose component is visited, in range and duplicate-free, and
whose non-stacked component members already have all their in-range
neighbours visited, the loop — given fuel at least the measure
`stack length + number of unvisited entries` — returns: a visited array
of unchanged length that holds exactly the old marks plus the result
component; the component extended only by previously unvisited nodes
each having an incoming edge; a duplicate-free, in-range component; and
a component all of whose members have all their in-range neighbours
visited at the end. -/
lemma dfsLoop_spec (adj : ℕ → ℕ → Bool) (n : ℕ) :
    ∀ (fuel : ℕ) (stack : List ℕ) (visited : List Bool) (comp : List ℕ),
      visited.length = n →
      stack.length + visited.count false ≤ fuel →
      stack.Nodup → comp.Nodup →
      (∀ x ∈ stack, x ∈ comp) →
      (∀ x ∈ comp, x < n) →
      (∀ x ∈ comp, visited.getD x false = true) →
      (∀ x ∈ comp, x ∉ stack → ∀ j, j < n → adj x j = true →
        visited.getD j false = true) →
      (dfsLoop adj n fuel stack visited comp).1.length = n ∧
        (∃ Δ, (dfsLoop adj n fuel stack visited comp).2 = comp ++ Δ ∧
          (∀ x ∈ Δ, visited.getD x false = false) ∧
          (∀ x ∈ Δ, ∃ y, y < n ∧ adj y x = true)) ∧
        (dfsLoop adj n fuel stack visited comp).2.Nodup ∧
        (∀ x ∈ (dfsLoop adj n fuel stack visited comp).2, x < n) ∧
        (∀ j, (dfsLoop adj n fuel stack visited comp).1.getD j false = true ↔
          (visited.getD j false = true ∨ j ∈ (dfsLoop adj n fuel stack visited comp).2)) ∧
        (∀ x ∈ (dfsLoop adj n fuel stack visited comp).2, ∀ j, j < n →
          adj x j = true → (dfsLoop adj n fuel stack visited comp).1.getD j false = true) := by
  intro fuel
  induction fuel with
  | zero =>
    intro stack visited comp hlen hfuel hnds hndc hsc hclt hcv hcls
    have hstack : stack = [] := by
      cases stack with
      | nil => rfl
      | cons a t => simp at hfuel
    subst hstack
    refine ⟨hlen, ⟨[], by simp [dfsLoop], by simp, by simp⟩, hndc, hclt, ?_, ?_⟩
    · intro j
      exact ⟨Or.inl, fun h => h.elim id (fun h2 => hcv j h2)⟩
    · intro x hx j hj hadj
      exact hcls x hx (by simp) j hj hadj
  | succ fuel ih =>
    intro stack visited comp hlen hfuel hnds hndc hsc hclt hcv hcls
    cases stack with
    | nil =>
      refine ⟨hlen, ⟨[], by simp [dfsLoop], by simp, by simp⟩, hndc, hclt, ?_, ?_⟩
      · intro j
        exact ⟨Or.inl, fun h => h.elim id (fun h2 => hcv j h2)⟩
      · intro x hx j hj hadj
        exact hcls x hx (by simp) j hj hadj
    | cons node rest =>
      have hnode_comp : node ∈ comp := hsc node (by simp)
      have hnode_lt : node < n := hclt node hnode_comp
      rw [show dfsLoop adj n (fuel + 1) (node :: rest) visited comp =
        dfsLoop adj n fuel
          (((List.range n).filter
            (fun j => adj node j && !(visited.getD j false))).reverse ++ rest)
          (((List.range n).filter
            (fun j => adj node j && !(visited.getD j false))).foldl
              (fun v j => v.set j true) visited)
          (comp ++ (List.range n).filter
            (fun j => adj node j && !(visited.getD j false))) from rfl]
      set fresh :=
        (List.range n).filter (fun j => adj node j && !(visited.getD j false)) with hfreshdef
      set visited2 := fresh.foldl (fun v j => v.set j true) visited with hv2def
      have hfr : ∀ j ∈ fresh, j < n ∧ adj node j = true ∧ visited.getD j false = false := by
        intro j hj
        rw [hfreshdef, List.mem_filter, List.mem_range] at hj
        rcases hj with ⟨h1, h2⟩
        simp only [Bool.and_eq_true, Bool.not_eq_true'] at h2
        exact ⟨h1, h2.1, h2.2⟩
      have hfresh_mem : ∀ j, j < n → adj node j = true → visited.getD j false = false →
          j ∈ fresh := by
        intro j h1 h2 h3
        rw [hfreshdef, List.mem_filter, List.mem_range]
        refine ⟨h1, ?_⟩
        rw [h2, h3]
        rfl
      have hfr_nd : fresh.Nodup := (List.nodup_range n).filter _
      have hrest_nd : rest.Nodup := (List.nodup_cons.mp hnds).2
      have hnode_rest : node ∉ rest := (List.nodup_cons.mp hnds).1
      have hlen2 : visited2.length = n := by
        rw [hv2def, markAll_length]
        exact hlen
      have hcount : visited2.count false + fresh.length = visited.count false :=
        markAll_count fresh visited hfr_nd
          (fun j hj => ⟨by rw [hlen]; exact (hfr j hj).1, (hfr j hj).2.2⟩)
      have hfuel2 : (fresh.reverse ++ rest).length + visited2.count false ≤ fuel := by
        simp only [List.length_append, List.length_reverse]
        simp only [List.length_cons] at hfuel
        omega
      have hfresh_unvis : ∀ x ∈ fresh, x ∉ comp := by
        intro x hx hc
        have h2 := (hfr x hx).2.2
        rw [hcv x hc] at h2
        exact absurd h2 (by simp)
      have hnds2 : (fresh.reverse ++ rest).Nodup := by
        rw [List.nodup_append]
        refine ⟨List.nodup_reverse.mpr hfr_nd, hrest_nd, ?_⟩
        intro a ha har
        have hac : a ∈ comp := hsc a (by simp [har])
        have := hcv a hac
        rw [(hfr a (List.mem_reverse.mp ha)).2.2] at this
        exact absurd this (by simp)
      have hndc2 : (comp ++ fresh).Nodup := by
        rw [List.nodup_append]
        exact ⟨hndc, hfr_nd, fun a ha haf => hfresh_unvis a haf ha⟩
      have hsc2 : ∀ x ∈ fresh.reverse ++ rest, x ∈ comp ++ fresh := by
        intro x hx
        rcases List.mem_append.mp hx with h | h
        · exact List.mem_append.mpr (Or.inr (List.mem_reverse.mp h))
        · exact List.mem_append.mpr (Or.inl (hsc x (by simp [h])))
      have hclt2 : ∀ x ∈ comp ++ fresh, x < n := by
        intro x hx
        rcases List.mem_append.mp hx with h | h
        · exact hclt x h
        · exact (hfr x h).1
      have hcv2 : ∀ x ∈ comp ++ fresh, visited2.getD x false = true := by
        intro x hx
        rcases List.mem_append.mp hx with h | h
        · exact markAll_mono fresh visited x (hcv x h)
        · exact markAll_mem fresh visited x h (by rw [hlen]; exact (hfr x h).1)
      have hcls2 : ∀ x ∈ comp ++ fresh, x ∉ fresh.reverse ++ rest → ∀ j, j < n →
          adj x j = true → visited2.getD j false = true := by
        intro x hx hxs j hj hadj
        rcases List.mem_append.mp hx with h | h
        · rcases eq_or_ne x node with he | he
          · subst he
            rcases hb : visited.getD j false with _ | _
            · exact markAll_mem fresh visited j (hfresh_mem j hj hadj hb)
                (by rw [hlen]; exact hj)
            · exact markAll_mono fresh visited j hb
          · have hxrest : x ∉ rest := fun hr => hxs (List.mem_append.mpr (Or.inr hr))
            have hxstack : x ∉ node :: rest := by simp [he, hxrest]
            exact markAll_mono fresh visited j (hcls x h hxstack j hj hadj)
        · exact absurd (List.mem_append.mpr (Or.inl (List.mem_reverse.mpr h))) hxs
      obtain ⟨R1, ⟨Δ2, hΔeq, hΔold, hΔedge⟩, R3, R4, R5, R6⟩ :=
        ih (fresh.reverse ++ rest) visited2 (comp ++ fresh) hlen2 hfuel2 hnds2 hndc2
          hsc2 hclt2 hcv2 hcls2
      have hvis2_to_vis : ∀ j, visited2.getD j false = false →
          visited.getD j false = false := by
        intro j hj
        rcases hb : visited.getD j false with _ | _
        · rfl
        · rw [markAll_mono fresh visited j hb] at hj
          exact absurd hj (by simp)
      refine ⟨R1, ⟨fresh ++ Δ2, ?_, ?_, ?_⟩, R3, R4, ?_, R6⟩
      · rw [hΔeq, List.append_assoc]
      · intro x hx
        rcases List.mem_append.mp hx with h | h
        · exact (hfr x h).2.2
        · exact hvis2_to_vis x (hΔold x h)
      · intro x hx
        rcases List.mem_append.mp hx with h | h
        · exact ⟨node, hnode_lt, (hfr x h).2.1⟩
        · exact hΔedge x h
      · intro j
        constructor
        · intro h
          rcases (R5 j).mp h with h2 | h2
          · rcases markAll_rev fresh visited j h2 with h3 | h3
            · exact Or.inl h3
            · refine Or.inr ?_
              rw [hΔeq]
              exact List.mem_append.mpr (Or.inl (List.mem_append.mpr (Or.inr h3)))
          · exact Or.inr h2
        · intro h
          rcases h with h | h
          · exact (R5 j).mpr (Or.inl (markAll_mono fresh visited j h))
          · exact (R5 j).mpr (Or.inr h)

/-- An index with no in-range neighbours: the stack loop terminates
immediately with the singleton component. -/
lemma dfsLoop_isolated (adj : ℕ → ℕ → Bool) (n fuel i : ℕ) (v : List Bool)
    (h : ∀ j, j < n → adj i j = false) :
    dfsLoop adj n (fuel + 1) [i] v [i] = (v, [i]) := by
  have hfresh : (List.range n).filter (fun j => adj i j && !(v.getD j false)) = [] := by
    rw [List.filter_eq_nil_iff]
    intro j hj
    rw [h j (List.mem_range.mp hj)]
    simp
  cases fuel with
  | zero =>
    simp only [dfsLoop]
    rw [hfresh]
    simp
  | succ m =>
    simp only [dfsLoop]
    rw [hfresh]
    simp [dfsLoop]

/-- Membership reading of a `set true` mark. -/
lemma getD_set_true_iff (v : List Bool) (i j : ℕ) (hi : i < v.length) :
    ((v.set i true).getD j false = true) ↔ (v.getD j false = true ∨ j = i) := by
  rcases eq_or_ne j i with he | he
  · subst he
    rw [getD_set_self v j true false hi]
    simp
  · rw [getD_set_other v i j true false (Ne.symm he)]
    simp [he]

/-- The full invariant of the outer loop of `detect_fragments`: as long
as the visited array matches the union of the collected components,
each collected component is duplicate-free, non-empty, in range and
closed under the (symmetric) adjacency, the components are pairwise
disjoint, and every still unprocessed visited index has an incoming
edge, the loop extends the component list so that, at the end, every
processed index lies in some component and every isolated processed
index forms its own singleton component. -/
lemma detectLoop_spec (adj : ℕ → ℕ → Bool) (n : ℕ)
    (hsym : ∀ i j, adj i j = adj j i) :
    ∀ (idxs : List ℕ) (visited : List Bool) (comps : List (List ℕ)),
      visited.length = n →
      (∀ i ∈ idxs, i < n) →
      idxs.Nodup →
      (∀ j, visited.getD j false = true ↔ ∃ c ∈ comps, j ∈ c) →
      (∀ c ∈ comps, c.Nodup ∧ c ≠ [] ∧ ∀ x ∈ c, x < n) →
      (∀ c ∈ comps, ∀ x ∈ c, ∀ j, j < n → adj x j = true → j ∈ c) →
      comps.Pairwise (fun c d => ∀ x, x ∈ c → x ∉ d) →
      (∀ j ∈ idxs, visited.getD j false = true → ∃ y, y < n ∧ adj y j = true) →
      (∃ Δc, detectLoop adj n idxs visited comps = comps ++ Δc) ∧
        (∀ c ∈ detectLoop adj n idxs visited comps, c.Nodup ∧ c ≠ [] ∧ ∀ x ∈ c, x < n) ∧
        (∀ c ∈ detectLoop adj n idxs visited comps, ∀ x ∈ c, ∀ j, j < n →
          adj x j = true → j ∈ c) ∧
        (detectLoop adj n idxs visited comps).Pairwise (fun c d => ∀ x, x ∈ c → x ∉ d) ∧
        (∀ i ∈ idxs, ∃ c ∈ detectLoop adj n idxs visited comps, i ∈ c) ∧
        (∀ i ∈ idxs, (∀ j, j < n → adj i j = false) →
          [i] ∈ detectLoop adj n idxs visited comps) := by
  intro idxs
  induction idxs with
  | nil =>
    intro visited comps hlen his hnd O4 O2 O5 O3 O7
    simp only [detectLoop]
    exact ⟨⟨[], by simp⟩, O2, O5, O3, by simp, by simp⟩
  | cons i rest ih =>
    intro visited comps hlen his hnd O4 O2 O5 O3 O7
    have hi_lt : i < n := his i (by simp)
    by_cases hvis : visited.getD i false = true
    · rw [show detectLoop adj n (i :: rest) visited comps =
          detectLoop adj n rest visited comps from by
        conv_lhs => unfold detectLoop
        exact if_pos hvis]
      obtain ⟨⟨Δc, hΔc⟩, D2, D5, D3, Dcov, Dsing⟩ :=
        ih visited comps hlen (fun x hx => his x (by simp [hx]))
          ((List.nodup_cons.mp hnd).2) O4 O2 O5 O3 (fun j hj => O7 j (by simp [hj]))
      refine ⟨⟨Δc, hΔc⟩, D2, D5, D3, ?_, ?_⟩
      · intro x hx
        rcases List.mem_cons.mp hx with he | hr
        · subst he
          obtain ⟨c, hc, hxc⟩ := (O4 x).mp hvis
          exact ⟨c, by rw [hΔc]; exact List.mem_append.mpr (Or.inl hc), hxc⟩
        · exact Dcov x hr
      · intro x hx hiso
        rcases List.mem_cons.mp hx with he | hr
        · subst he
          obtain ⟨y, hy, hadj⟩ := O7 x (by simp) hvis
          rw [hsym y x, hiso y hy] at hadj
          exact absurd hadj (by simp)
        · exact Dsing x hr hiso
    · have hvisF : visited.getD i false = false := by
        rcases hb : visited.getD i false with _ | _
        · rfl
        · exact absurd hb hvis
      have hi_len : i < visited.length := by rw [hlen]; exact hi_lt
      rw [show detectLoop adj n (i :: rest) visited comps =
          detectLoop adj n rest (dfsLoop adj n (n + 1) [i] (visited.set i true) [i]).1
            (comps ++ [(dfsLoop adj n (n + 1) [i] (visited.set i true) [i]).2]) from by
        conv_lhs => unfold detectLoop
        exact if_neg hvis]
      have hset_len : (visited.set i true).length = n := by
        simp [List.length_set, hlen]
      have hfuelcalc : (1 : ℕ) + (visited.set i true).count false ≤ n + 1 := by
        have h1 : (visited.set i true).count false + 1 = visited.count false :=
          count_false_set visited i hi_len hvisF
        have h2 : visited.count false ≤ visited.length := List.count_le_length _ _
        omega
      obtain ⟨R1, ⟨Δ, hΔeq, hΔold, hΔedge⟩, R3, R4, R5, R6⟩ :=
        dfsLoop_spec adj n (n + 1) [i] (visited.set i true) [i] hset_len
          (by simpa using hfuelcalc) (by simp) (by simp) (by simp)
          (by intro x hx; simp at hx; subst hx; exact hi_lt)
          (by
            intro x hx
            simp at hx
            subst hx
            exact getD_set_self visited x true false hi_len)
          (by
            intro x hx hxs
            simp at hx
            subst hx
            simp at hxs)
      set inner := dfsLoop adj n (n + 1) [i] (visited.set i true) [i] with hinner
      have hi_mem_comp : i ∈ inner.2 := by
        rw [hΔeq]
        simp
      have hcomp_vis : ∀ x ∈ inner.2, visited.getD x false = false := by
        intro x hx
        rw [hΔeq] at hx
        rcases List.mem_append.mp hx with hxi | hxΔ
        · simp at hxi
          subst hxi
          exact hvisF
        · have hset := hΔold x hxΔ
          have hxne : x ≠ i := by
            rintro rfl
            rw [getD_set_self visited x true false hi_len] at hset
            exact absurd hset (by simp)
          rw [getD_set_other visited i x true false (Ne.symm hxne)] at hset
          exact hset
      have hiffy : ∀ j, inner.1.getD j false = true ↔
          (visited.getD j false = true ∨ j ∈ inner.2) := by
        intro j
        rw [R5 j, getD_set_true_iff visited i j hi_len]
        constructor
        · rintro ((h | h) | h)
          · exact Or.inl h
          · subst h
            exact Or.inr hi_mem_comp
          · exact Or.inr h
        · rintro (h | h)
          · exact Or.inl (Or.inl h)
          · exact Or.inr h
      have O4n : ∀ j, inner.1.getD j false = true ↔
          ∃ c ∈ comps ++ [inner.2], j ∈ c := by
        intro j
        rw [hiffy j]
        constructor
        · rintro (h | h)
          · obtain ⟨c, hc, hjc⟩ := (O4 j).mp h
            exact ⟨c, List.mem_append.mpr (Or.inl hc), hjc⟩
          · exact ⟨inner.2, List.mem_append.mpr (Or.inr (by simp)), h⟩
        · rintro ⟨c, hc, hjc⟩
          rcases List.mem_append.mp hc with hcc | hcn
          · exact Or.inl ((O4 j).mpr ⟨c, hcc, hjc⟩)
          · simp at hcn
            subst hcn
            exact Or.inr hjc
      have O2n : ∀ c ∈ comps ++ [inner.2], c.Nodup ∧ c ≠ [] ∧ ∀ x ∈ c, x < n := by
        intro c hc
        rcases List.mem_append.mp hc with hcc | hcn
        · exact O2 c hcc
        · simp at hcn
          subst hcn
          refine ⟨R3, ?_, R4⟩
          rw [hΔeq]
          simp
      have O5n : ∀ c ∈ comps ++ [inner.2], ∀ x ∈ c, ∀ j, j < n →
          adj x j = true → j ∈ c := by
        intro c hc x hx j hj hadj
        rcases List.mem_append.mp hc with hcc | hcn
        · exact O5 c hcc x hx j hj hadj
        · simp at hcn
          subst hcn
          have hjv := R6 x hx j hj hadj
          rcases (hiffy j).mp hjv with hjold | hjin
          · obtain ⟨c0, hc0, hjc0⟩ := (O4 j).mp hjold
            have hadj2 : adj j x = true := by rw [hsym j x]; exact hadj
            have hxc0 : x ∈ c0 := O5 c0 hc0 j hjc0 x (R4 x hx) hadj2
            have := (O4 x).mpr ⟨c0, hc0, hxc0⟩
            rw [hcomp_vis x hx] at this
            exact absurd this (by simp)
          · exact hjin
      have O3n : (comps ++ [inner.2]).Pairwise (fun c d => ∀ x, x ∈ c → x ∉ d) := by
        rw [List.pairwise_append]
        refine ⟨O3, by simp, ?_⟩
        intro c hcc d hd x hxc hxd
        simp at hd
        subst hd
        have := (O4 x).mpr ⟨c, hcc, hxc⟩
        rw [hcomp_vis x hxd] at this
        exact absurd this (by simp)
      have O7n : ∀ j ∈ rest, inner.1.getD j false = true →
          ∃ y, y < n ∧ adj y j = true := by
        intro j hj hjv
        rcases (hiffy j).mp hjv with hjold | hjin
        · exact O7 j (by simp [hj]) hjold
        · rw [hΔeq] at hjin
          rcases List.mem_append.mp hjin with hji | hjΔ
          · simp at hji
            subst hji
            exact absurd hj (List.nodup_cons.mp hnd).1
          · exact hΔedge j hjΔ
      obtain ⟨⟨Δc, hΔc⟩, D2, D5, D3, Dcov, Dsing⟩ :=
        ih inner.1 (comps ++ [inner.2]) R1 (fun x hx => his x (by simp [hx]))
          ((List.nodup_cons.mp hnd).2) O4n O2n O5n O3n O7n
      have hmem_res : ∀ c ∈ comps ++ [inner.2],
          c ∈ detectLoop adj n rest inner.1 (comps ++ [inner.2]) := by
        intro c hc
        rw [hΔc]
        exact List.mem_append.mpr (Or.inl hc)
      refine ⟨⟨[inner.2] ++ Δc, by rw [hΔc, List.append_assoc]⟩, D2, D5, D3, ?_, ?_⟩
      · intro x hx
        rcases List.mem_cons.mp hx with he | hr
        · subst he
          exact ⟨inner.2, hmem_res inner.2 (List.mem_append.mpr (Or.inr (by simp))),
            hi_mem_comp⟩
        · exact Dcov x hr
      · intro x hx hiso
        rcases List.mem_cons.mp hx with he | hr
        · subst he
          have hsingle : inner.2 = [x] := by
            rw [hinner, dfsLoop_isolated adj n n x (visited.set x true) hiso]
          rw [← hsingle]
          exact hmem_res inner.2 (List.mem_append.mpr (Or.inr (by simp)))
        · exact Dsing x hr hiso

/-- Writing one component's id preserves the id-array length. -/
lemma setAll_length (c : List ℕ) (k : ℕ) (ids : List ℕ) :
    (c.foldl (fun a idx => a.set idx k) ids).length = ids.length := by
  induction c generalizing ids with
  | nil => rfl
  | cons x t ih => simp [ih, List.length_set]

/-- Writing one component's id leaves unlisted indices alone. -/
lemma setAll_getD_of_not_mem (c : List ℕ) (k : ℕ) (ids : List ℕ) (i : ℕ) (hi : i ∉ c) :
    (c.foldl (fun a idx => a.set idx k) ids).getD i 0 = ids.getD i 0 := by
  induction c generalizing ids with
  | nil => rfl
  | cons x t ih =>
    simp only [List.foldl_cons]
    rw [ih (ids.set x k) (fun ht => hi (by simp [ht]))]
    exact getD_set_other ids x i k 0 (fun he => hi (by simp [he]))

/-- Writing one component's id marks every listed in-range index. -/
lemma setAll_getD_of_mem (c : List ℕ) (k : ℕ) (ids : List ℕ) (i : ℕ) (hi : i ∈ c)
    (hlen : i < ids.length) :
    (c.foldl (fun a idx => a.set idx k) ids).getD i 0 = k := by
  induction c generalizing ids with
  | nil => simp at hi
  | cons x t ih =>
    simp only [List.foldl_cons]
    by_cases ht : i ∈ t
    · exact ih (ids.set x k) ht (by simp [List.length_set, hlen])
    · have hx : i = x := by
        rcases List.mem_cons.mp hi with he | he
        · exact he
        · exact absurd he ht
      subst hx
      rw [setAll_getD_of_not_mem t k (ids.set i k) i ht]
      exact getD_set_self ids i k 0 hlen

/-- The assignment loop leaves indices listed in no component alone. -/
lemma assignLoop_getD_of_not_mem (cs : List (List ℕ)) (k : ℕ) (ids : List ℕ) (i : ℕ)
    (hi : ∀ c ∈ cs, i ∉ c) :
    (assignLoop cs k ids).getD i 0 = ids.getD i 0 := by
  induction cs generalizing k ids with
  | nil => rfl
  | cons c t ih =>
    show (assignLoop t (k + 1) (c.foldl (fun a idx => a.set idx k) ids)).getD i 0 =
      ids.getD i 0
    rw [ih (k + 1) _ (fun d hd => hi d (by simp [hd]))]
    exact setAll_getD_of_not_mem c k ids i (hi c (by simp))

/-- With pairwise disjoint components, an index listed in the `m`-th
component receives id `k + m` from the assignment loop started at
`k`. -/
lemma assignLoop_getD (cs : List (List ℕ)) (k : ℕ) (ids : List ℕ) (m i : ℕ)
    (hpw : cs.Pairwise (fun c d => ∀ x, x ∈ c → x ∉ d)) (hm : m < cs.length)
    (hi : i ∈ cs.getD m []) (hlen : i < ids.length) :
    (assignLoop cs k ids).getD i 0 = k + m := by
  induction cs generalizing k ids m with
  | nil => simp at hm
  | cons c t ih =>
    show (assignLoop t (k + 1) (c.foldl (fun a idx => a.set idx k) ids)).getD i 0 = k + m
    cases m with
    | zero =>
      have hic : i ∈ c := hi
      have hnot : ∀ d ∈ t, i ∉ d := fun d hd =>
        (List.pairwise_cons.mp hpw).1 d hd i hic
      rw [assignLoop_getD_of_not_mem t (k + 1) _ i hnot]
      rw [setAll_getD_of_mem c k ids i hic hlen]
      omega
    | succ m2 =>
      have hm2 : m2 < t.length := by simpa using hm
      have hmem : t.getD m2 [] ∈ t := by
        rw [List.getD_eq_getElem t [] hm2]
        exact List.getElem_mem hm2
      have hic : i ∉ c := fun hc =>
        (List.pairwise_cons.mp hpw).1 (t.getD m2 []) hmem i hc hi
      have := ih (k + 1) (c.foldl (fun a idx => a.set idx k) ids) m2
        (List.pairwise_cons.mp hpw).2 hm2 hi (by rw [setAll_length]; exact hlen)
      rw [this]
      omega

/-- Replicated `false` reads back `false` everywhere. -/
lemma getD_replicate_false (n j : ℕ) :
    (List.replicate n false).getD j false = false := by
  induction n generalizing j with
  | zero => rfl
  | succ m ih =>
    cases j with
    | zero => rfl
    | succ j2 => exact ih j2

/-- The component properties of `detect_fragments` on a non-empty
particle list: components are duplicate-free, non-empty and in range;
each component is closed under the adjacency; components are pairwise
disjoint; every index lies in some component; every isolated index
forms its own singleton component. -/
lemma detect_fragments_parts (ps : List (α × α)) (hne : ps ≠ []) :
    (∀ c ∈ detect_fragments ps, c.Nodup ∧ c ≠ [] ∧ ∀ x ∈ c, x < ps.length) ∧
      (∀ c ∈ detect_fragments ps, ∀ x ∈ c, ∀ j, j < ps.length →
        adjacent ps x j = true → j ∈ c) ∧
      (detect_fragments ps).Pairwise (fun c d => ∀ x, x ∈ c → x ∉ d) ∧
      (∀ i, i < ps.length → ∃ c ∈ detect_fragments ps, i ∈ c) ∧
      (∀ i, i < ps.length → (∀ j, j < ps.length → adjacent ps i j = false) →
        [i] ∈ detect_fragments ps) := by
  have hunfold : detect_fragments ps =
      detectLoop (adjacent ps) ps.length (List.range ps.length)
        (List.replicate ps.length false) [] := by
    unfold detect_fragments
    rw [if_neg hne]
  obtain ⟨_, D2, D5, D3, Dcov, Dsing⟩ :=
    detectLoop_spec (adjacent ps) ps.length (adjacent_symm ps) (List.range ps.length)
      (List.replicate ps.length false) []
      (List.length_replicate _ _)
      (fun i hi => List.mem_range.mp hi)
      (List.nodup_range _)
      (by
        intro j
        rw [getD_replicate_false]
        simp)
      (by simp) (by simp) (by simp)
      (by
        intro j hj hcontra
        rw [getD_replicate_false] at hcontra
        exact absurd hcontra (by simp))
  rw [hunfold]
  exact ⟨D2, D5, D3,
    fun i hi => Dcov i (List.mem_range.mpr hi),
    fun i hi hiso => Dsing i (List.mem_range.mpr hi) hiso⟩

/-- With pairwise disjoint components, an index belongs to at most one
component position. -/
lemma comp_index_unique (cs : List (List ℕ))
    (hpw : cs.Pairwise (fun c d => ∀ x, x ∈ c → x ∉ d)) (m1 m2 i : ℕ)
    (h1 : m1 < cs.length) (h2 : m2 < cs.length)
    (hi1 : i ∈ cs.getD m1 []) (hi2 : i ∈ cs.getD m2 []) : m1 = m2 := by
  rcases Nat.lt_trichotomy m1 m2 with hlt | heq | hgt
  · have := (List.pairwise_iff_getElem.mp hpw) m1 m2 h1 h2 hlt i
    rw [List.getD_eq_getElem cs [] h1] at hi1
    rw [List.getD_eq_getElem cs [] h2] at hi2
    exact absurd hi2 (this hi1)
  · exact heq
  · have := (List.pairwise_iff_getElem.mp hpw) m2 m1 h2 h1 hgt i
    rw [List.getD_eq_getElem cs [] h1] at hi1
    rw [List.getD_eq_getElem cs [] h2] at hi2
    exact absurd hi1 (this hi2)

/-- A component membership converted to a positional one. -/
lemma mem_to_index (cs : List (List ℕ)) (c : List ℕ) (hc : c ∈ cs) :
    ∃ m, m < cs.length ∧ cs.getD m [] = c := by
  obtain ⟨m, hm, he⟩ := List.mem_iff_getElem.mp hc
  exact ⟨m, hm, by rw [List.getD_eq_getElem cs [] hm]; exact he⟩

/-- Claim C6: for a non-empty particle list, (1) every particle index
lies in exactly one detected component, so the per-particle
`fragment_id` assignment is well defined; (2) the id assigned to each
particle is the (unique) 0-based position of its component, hence below
the component count; (3) every id below the component count is assigned
to some particle (the labeling is dense); (4) an isolated particle gets
its own singleton component. -/
theorem claim_C6 (ps : List (α × α)) (hne : ps ≠ []) :
    (∀ i, i < ps.length → ∃! m, m < (detect_fragments ps).length ∧
      i ∈ (detect_fragments ps).getD m []) ∧
      (∀ i, i < ps.length → fragIdOf ps i < (detect_fragments ps).length ∧
        i ∈ (detect_fragments ps).getD (fragIdOf ps i) []) ∧
      (∀ k, k < (detect_fragments ps).length →
        ∃ i, i < ps.length ∧ fragIdOf ps i = k) ∧
      (∀ i, i < ps.length → (∀ j, j < ps.length → adjacent ps i j = false) →
        [i] ∈ detect_fragments ps) := by
  obtain ⟨D2, D5, D3, Dcov, Dsing⟩ := detect_fragments_parts ps hne
  have hassign : ∀ m i, m < (detect_fragments ps).length →
      i ∈ (detect_fragments ps).getD m [] → i < ps.length → fragIdOf ps i = m := by
    intro m i hm hi hilen
    unfold fragIdOf assignFragments
    rw [assignLoop_getD (detect_fragments ps) 0 (List.replicate ps.length 0) m i D3 hm hi
      (by rw [List.length_replicate]; exact hilen)]
    omega
  have hfind : ∀ i, i < ps.length → ∃ m, m < (detect_fragments ps).length ∧
      i ∈ (detect_fragments ps).getD m [] := by
    intro i hi
    obtain ⟨c, hc, hic⟩ := Dcov i hi
    obtain ⟨m, hm, he⟩ := mem_to_index (detect_fragments ps) c hc
    exact ⟨m, hm, by rw [he]; exact hic⟩
  refine ⟨?_, ?_, ?_, Dsing⟩
  · intro i hi
    obtain ⟨m, hm, him⟩ := hfind i hi
    refine ⟨m, ⟨hm, him⟩, ?_⟩
    rintro m2 ⟨hm2, him2⟩
    exact comp_index_unique (detect_fragments ps) D3 m2 m i hm2 hm him2 him
  · intro i hi
    obtain ⟨m, hm, him⟩ := hfind i hi
    rw [hassign m i hm him hi]
    exact ⟨hm, him⟩
  · intro k hk
    have hmem : (detect_fragments ps).getD k [] ∈ detect_fragments ps := by
      rw [List.getD_eq_getElem (detect_fragments ps) [] hk]
      exact List.getElem_mem hk
    obtain ⟨hnd, hnonempty, hlt⟩ := D2 _ hmem
    obtain ⟨i, hi⟩ := List.exists_mem_of_ne_nil _ hnonempty
    exact ⟨i, hlt i hi, hassign k i hk hi (hlt i hi)⟩

/-- Claim C7: the fragment relation is symmetric and transitively
closed — if `a` is adjacent to `b` and `b` is adjacent to `c` (distance
below `STRONG_FORCE_RADIUS * 0.7`), then `a` and `c` receive the same
fragment id, even when `a` and `c` are not directly adjacent. -/
theorem claim_C7 (ps : List (α × α)) (a b c : ℕ)
    (ha : a < ps.length) (hb : b < ps.length) (hc : c < ps.length)
    (hab : adjacent ps a b = true) (hbc : adjacent ps b c = true) :
    fragIdOf ps a = fragIdOf ps c := by
  have hne : ps ≠ [] := by
    intro h
    rw [h] at ha
    simp at ha
  obtain ⟨D2, D5, D3, Dcov, Dsing⟩ := detect_fragments_parts ps hne
  have hassign : ∀ m i, m < (detect_fragments ps).length →
      i ∈ (detect_fragments ps).getD m [] → i < ps.length → fragIdOf ps i = m := by
    intro m i hm hi hilen
    unfold fragIdOf assignFragments
    rw [assignLoop_getD (detect_fragments ps) 0 (List.replicate ps.length 0) m i D3 hm hi
      (by rw [List.length_replicate]; exact hilen)]
    omega
  obtain ⟨ca, hca, haca⟩ := Dcov a ha
  obtain ⟨ma, hma, hea⟩ := mem_to_index (detect_fragments ps) ca hca
  have haIn : a ∈ (detect_fragments ps).getD ma [] := by rw [hea]; exact haca
  have hbIn : b ∈ (detect_fragments ps).getD ma [] := by
    rw [hea]
    exact D5 ca hca a haca b hb hab
  obtain ⟨cb, hcb, hbcb⟩ := Dcov b hb
  obtain ⟨mb, hmb, heb⟩ := mem_to_index (detect_fragments ps) cb hcb
  have hbIn2 : b ∈ (detect_fragments ps).getD mb [] := by rw [heb]; exact hbcb
  have hcIn : c ∈ (detect_fragments ps).getD mb [] := by
    rw [heb]
    exact D5 cb hcb b hbcb c hc hbc
  have hmeq : ma = mb :=
    comp_index_unique (detect_fragments ps) D3 ma mb b hma hmb hbIn hbIn2
  rw [hassign ma a hma haIn ha, hassign mb c hmb hcIn hc, hmeq]

/-- Witness for claim C6: two far-apart particles over `ℚ`. -/
theorem claim_C6_witness :
    ([((0 : ℚ), (0 : ℚ)), ((100 : ℚ), (0 : ℚ))] ≠ ([] : List (ℚ × ℚ))) ∧
      (∀ i, i < ([((0 : ℚ), (0 : ℚ)), ((100 : ℚ), (0 : ℚ))] : List (ℚ × ℚ)).length →
        ∃! m, m < (detect_fragments [((0 : ℚ), (0 : ℚ)), ((100 : ℚ), (0 : ℚ))]).length ∧
          i ∈ (detect_fragments [((0 : ℚ), (0 : ℚ)), ((100 : ℚ), (0 : ℚ))]).getD m []) := by
  have hne : ([((0 : ℚ), (0 : ℚ)), ((100 : ℚ), (0 : ℚ))] ≠ ([] : List (ℚ × ℚ))) := by
    simp
  exact ⟨hne, (claim_C6 [((0 : ℚ), (0 : ℚ)), ((100 : ℚ), (0 : ℚ))] hne).1⟩

/-- Witness for claim C7: three collinear particles over `ℚ` at mutual
spacing `10` — the outer two share a fragment id through the middle
one. -/
theorem claim_C7_witness :
    adjacent [((0 : ℚ), (0 : ℚ)), ((10 : ℚ), (0 : ℚ)), ((20 : ℚ), (0 : ℚ))] 0 1 = true ∧
      adjacent [((0 : ℚ), (0 : ℚ)), ((10 : ℚ), (0 : ℚ)), ((20 : ℚ), (0 : ℚ))] 1 2 = true ∧
      fragIdOf [((0 : ℚ), (0 : ℚ)), ((10 : ℚ), (0 : ℚ)), ((20 : ℚ), (0 : ℚ))] 0 =
        fragIdOf [((0 : ℚ), (0 : ℚ)), ((10 : ℚ), (0 : ℚ)), ((20 : ℚ), (0 : ℚ))] 2 := by
  have h01 : adjacent [((0 : ℚ), (0 : ℚ)), ((10 : ℚ), (0 : ℚ)), ((20 : ℚ), (0 : ℚ))]
      0 1 = true := by
    norm_num [adjacent, dist2, STRONG_FORCE_RADIUS]
  have h12 : adjacent [((0 : ℚ), (0 : ℚ)), ((10 : ℚ), (0 : ℚ)), ((20 : ℚ), (0 : ℚ))]
      1 2 = true := by
    norm_num [adjacent, dist2, STRONG_FORCE_RADIUS]
  exact ⟨h01, h12,
    claim_C7 [((0 : ℚ), (0 : ℚ)), ((10 : ℚ), (0 : ℚ)), ((20 : ℚ), (0 : ℚ))] 0 1 2
      (by norm_num) (by norm_num) (by norm_num) h01 h12⟩

end Fragments

end NucleonSim
